import Mathlib

/-!
# Clustered shading index arithmetic

A shallow embedding of `anki/shaders/include/ClusteredShading.h` together with the
binning and packing components the specification describes around it, of the resource
manager of `Resources/Core/ResourceManager.inl.h` and of `File::open` and `File::readU32`
of `util/File.cpp`.

Conventions of the embedding:

* `F32` has two embeddings.  For the properties stated over real arithmetic (and the one
  stated up to a tolerance) `F32` is idealised as `ℝ`: `sqrt` is `Real.sqrt` and `pow` is
  `Real.rpow`, which agree with the C functions where those are defined (non-negative
  operand; positive base, or base 0 with a positive exponent); every theorem about them
  carries that domain as a hypothesis.
* For the properties of the values the code computes, the namespace `Binary32` holds the
  same functions in IEEE 754 binary32: every operation is followed by rounding to the
  nearest binary32 number, ties to even (24 bits of significand, subnormal numbers below
  `2^-126`, overflow at `2^128`), and a result that is not finite is `none`.  `sqrt` and
  `pow` are taken as correctly rounded, and `dot` as its three rounded products summed from
  the left, without fused multiply-add.
* the reference counter of a resource hook is an integer (`ℤ`) and a resource pointer is an
  address (`ℕ`).
* `U32` is `ℕ`, with `% 2 ^ 32` written out where the code does 32-bit arithmetic.
* the conversion `U32(f)` of a float truncates toward zero and is undefined when the
  truncated value does not fit in 32 bits; it returns an `Option`.
-/

namespace Anki

noncomputable section

/-! ## Vectors -/

/-- Two floats, `Vec2`. -/
structure Vec2 where
  x : ℝ
  y : ℝ

/-- Three floats, `Vec3`. -/
structure Vec3 where
  x : ℝ
  y : ℝ
  z : ℝ

/-- Four floats, `Vec4`. -/
structure Vec4 where
  x : ℝ
  y : ℝ
  z : ℝ
  w : ℝ

/-- The swizzle `v.xyz()`. -/
def Vec4.xyz (v : Vec4) : Vec3 := ⟨v.x, v.y, v.z⟩

/-- The dot product `dot(a, b)` of two `Vec3`. -/
def dot (a b : Vec3) : ℝ := a.x * b.x + a.y * b.y + a.z * b.z

/-! ## Constants and structures of `ClusteredShading.h` -/

/-- Point lights, spot lights, refl probes, GI probes, decals and fog volumes. -/
def TYPED_OBJECT_COUNT : ℕ := 6

/-- The two constant vectors of the depth-to-cluster formula, `struct ClustererMagicValues`. -/
structure ClustererMagicValues where
  m_val0 : Vec4
  m_val1 : Vec4

/-! ## Conversions between `F32` and `U32` -/

/-- Truncation toward zero, the rounding of a float-to-integer conversion. -/
def truncF32 (f : ℝ) : ℤ := if 0 ≤ f then ⌊f⌋ else ⌈f⌉

/-- The conversion `U32(f)`: the truncated value when it is representable in 32 bits,
undefined (`none`) otherwise. -/
def toU32 (f : ℝ) : Option ℕ :=
  if 0 ≤ truncF32 f ∧ truncF32 f < 2 ^ 32 then some (truncF32 f).toNat else none

/-- The conversion `F32(n)` of an unsigned integer. -/
def toF32 (n : ℕ) : ℝ := (n : ℝ)

/-! ## The functions of `ClusteredShading.h` -/

/-- Source: `computeClusterKf`, `sqrt(dot(magic.m_val0.xyz(), worldPos) - magic.m_val0.w())`. -/
def computeClusterKf (magic : ClustererMagicValues) (worldPos : Vec3) : ℝ :=
  Real.sqrt (dot magic.m_val0.xyz worldPos - magic.m_val0.w)

/-- Source: `computeClusterNearf`, `magic.m_val1.x() * fk * fk + magic.m_val1.y()`. -/
def computeClusterNearf (magic : ClustererMagicValues) (fk : ℝ) : ℝ :=
  magic.m_val1.x * fk * fk + magic.m_val1.y

/-- Source: `computeShadowCascadeDistance`,
`pow((F32(cascadeIdx) + 1.0f) / F32(shadowCascadeCount), p) * effectiveShadowDistance`. -/
def computeShadowCascadeDistance (cascadeIdx : ℕ) (p effectiveShadowDistance : ℝ)
    (shadowCascadeCount : ℕ) : ℝ :=
  ((toF32 cascadeIdx + 1) / toF32 shadowCascadeCount) ^ p * effectiveShadowDistance

/-- Source: `computeShadowCascadeIndex`.
`idx = pow(distance / effectiveShadowDistance, 1.0f / p) * shadowCascadeCountf`, then
`idx = min(idx, shadowCascadeCountf - 1.0f)` and the result is `U32(idx)`. -/
def computeShadowCascadeIndex (distance p effectiveShadowDistance : ℝ)
    (shadowCascadeCount : ℕ) : Option ℕ :=
  let shadowCascadeCountf : ℝ := toF32 shadowCascadeCount
  let idx : ℝ := (distance / effectiveShadowDistance) ^ (1 / p) * shadowCascadeCountf
  let idx : ℝ := min idx (shadowCascadeCountf - 1)
  toU32 idx

/-! ## MagicValueSolver -/

end

/-! ## Binary32 arithmetic

The `F32` operations of the shader header with their rounding.  A finite `F32` value is
the real number it denotes; `none` stands for a result that is not finite (an infinity
or a NaN).  The functions below propagate `none`: a value `some r` says that every
intermediate result is finite and that the code computes `r`. -/

namespace Binary32

noncomputable section

/-- The binade of `x`: `floor(log2 |x|)`, and `-126` for zero and the subnormal numbers. -/
def exponent (x : ℝ) : ℤ := if |x| < 2 ^ (-126 : ℤ) then -126 else Int.log 2 |x|

/-- The unit in the last place at `x`, for a significand of 24 bits. -/
def ulp (x : ℝ) : ℝ := (2 : ℝ) ^ (exponent x - 23)

/-- Rounding to the nearest integer, ties to even. -/
def roundTiesToEven (y : ℝ) : ℤ :=
  if Int.fract y < 1 / 2 then ⌊y⌋
  else if 1 / 2 < Int.fract y then ⌊y⌋ + 1
  else if ⌊y⌋ % 2 = 0 then ⌊y⌋
  else ⌊y⌋ + 1

/-- Rounding to the nearest binary32 number, ties to even, before the range check. -/
def roundReal (x : ℝ) : ℝ := (roundTiesToEven (x / ulp x) : ℝ) * ulp x

/-- The binary32 result of an operation whose exact result is `x`: the nearest binary32
number, ties to even, and an infinity (`none`) when that reaches `2^128`. -/
def roundF32 (x : ℝ) : Option ℝ :=
  if |roundReal x| < 2 ^ 128 then some (roundReal x) else none

/-- The binary32 numbers: the reals that rounding leaves as they are. -/
def IsF32 (x : ℝ) : Prop := roundF32 x = some x

/-- The sum `a + b` in `F32`. -/
def add (a b : ℝ) : Option ℝ := roundF32 (a + b)

/-- The difference `a - b` in `F32`. -/
def sub (a b : ℝ) : Option ℝ := roundF32 (a - b)

/-- The product `a * b` in `F32`. -/
def mul (a b : ℝ) : Option ℝ := roundF32 (a * b)

/-- The quotient `a / b` in `F32`; a division by zero gives an infinity or a NaN. -/
def div (a b : ℝ) : Option ℝ := if b = 0 then none else roundF32 (a / b)

/-- The function `sqrt` in `F32`, correctly rounded; the root of a negative number is a NaN. -/
def sqrt (a : ℝ) : Option ℝ := if a < 0 then none else roundF32 (Real.sqrt a)

/-- The function `pow` in `F32`, taken as the correctly rounded power.  A negative base
has a power only for an integer exponent, and `pow(0, y)` is an infinity for `y < 0`. -/
def pow (x y : ℝ) : Option ℝ :=
  if x < 0 then (if (⌊y⌋ : ℝ) = y then roundF32 (x ^ ⌊y⌋) else none)
  else if x = 0 ∧ y < 0 then none
  else roundF32 (x ^ y)

/-- The conversion `F32(n)` of a `U32`. -/
def ofU32 (n : ℕ) : Option ℝ := roundF32 (n : ℝ)

end

end Binary32

/-! ## The functions of `ClusteredShading.h` in binary32

The same functions with every `F32` operation rounded, for the properties of the values
the code computes. -/

namespace Binary32

noncomputable section

/-- The product `dot(a, b)` in `F32`: the three products, summed from the left. -/
def dot (a b : Vec3) : Option ℝ :=
  (mul a.x b.x).bind fun xx =>
  (mul a.y b.y).bind fun yy =>
  (mul a.z b.z).bind fun zz =>
  (add xx yy).bind fun s => add s zz

/-- The operand under the square root of `computeClusterKf`,
`dot(magic.m_val0.xyz(), worldPos) - magic.m_val0.w()`. -/
def clusterOperand (magic : ClustererMagicValues) (worldPos : Vec3) : Option ℝ :=
  (dot magic.m_val0.xyz worldPos).bind fun d => sub d magic.m_val0.w

/-- Source: `computeClusterKf`, `sqrt(dot(magic.m_val0.xyz(), worldPos) - magic.m_val0.w())`. -/
def computeClusterKf (magic : ClustererMagicValues) (worldPos : Vec3) : Option ℝ :=
  (clusterOperand magic worldPos).bind sqrt

/-- Source: `computeClusterK`, `U32(computeClusterKf(magic, worldPos))`. -/
def computeClusterK (magic : ClustererMagicValues) (worldPos : Vec3) : Option ℕ :=
  (computeClusterKf magic worldPos).bind toU32

/-- Source: `computeClusterIndex`.  `xy = UVec2(uv * Vec2(F32(countX), F32(countY)))`,
`k = computeClusterK(magic, worldPos)`, and the result is
`k * (countX * countY) + xy.y * countX + xy.x` in 32-bit unsigned arithmetic. -/
def computeClusterIndex (magic : ClustererMagicValues) (uv : Vec2) (worldPos : Vec3)
    (clusterCountX clusterCountY : ℕ) : Option ℕ :=
  (ofU32 clusterCountX).bind fun fx =>
  (ofU32 clusterCountY).bind fun fy =>
  (mul uv.x fx).bind fun px =>
  (mul uv.y fy).bind fun py =>
  (toU32 px).bind fun x =>
  (toU32 py).bind fun y =>
  (computeClusterK magic worldPos).bind fun k =>
  some ((((k * ((clusterCountX * clusterCountY) % 2 ^ 32)) % 2 ^ 32
    + (y * clusterCountX) % 2 ^ 32) % 2 ^ 32 + x) % 2 ^ 32)

/-- Source: `computeClusterNearf`, `magic.m_val1.x() * fk * fk + magic.m_val1.y()`. -/
def computeClusterNearf (magic : ClustererMagicValues) (fk : ℝ) : Option ℝ :=
  (mul magic.m_val1.x fk).bind fun a =>
  (mul a fk).bind fun b => add b magic.m_val1.y

/-- Source: `computeShadowCascadeDistance`,
`pow((F32(cascadeIdx) + 1.0f) / F32(shadowCascadeCount), p) * effectiveShadowDistance`. -/
def computeShadowCascadeDistance (cascadeIdx : ℕ) (p effectiveShadowDistance : ℝ)
    (shadowCascadeCount : ℕ) : Option ℝ :=
  (ofU32 cascadeIdx).bind fun fi =>
  (add fi 1).bind fun n =>
  (ofU32 shadowCascadeCount).bind fun fc =>
  (div n fc).bind fun q =>
  (pow q p).bind fun w => mul w effectiveShadowDistance

end

end Binary32

/-! ## ClustererBin -/

section

/-- Modelled from the spec: insertion of one stable index into one (cluster, type) bucket
(spec 4.4, steps 3 and 4).  A duplicate is skipped, and once the bucket holds
`maxIndicesPerClusterPerType` indices further objects are dropped. -/
def appendToBucket (maxIndicesPerClusterPerType : ℕ) (bucket : List ℕ)
    (stableIndex : ℕ) : List ℕ :=
  if stableIndex ∈ bucket then bucket
  else if maxIndicesPerClusterPerType ≤ bucket.length then bucket
  else bucket ++ [stableIndex]

/-- An object of one typed sequence after step 2 of ClustererBin: its stable index and the
linear indices of the clusters of its range. -/
structure BinnedObject where
  stableIndex : ℕ
  clusters : List ℕ
deriving DecidableEq

/-- Modelled from the spec: step 3 of ClustererBin for one object, on the buckets of one
type (cluster index to bucket): the stable index is appended to the bucket of every
cluster of the object's range. -/
def binObject (maxIndicesPerClusterPerType : ℕ) (buckets : ℕ → List ℕ)
    (obj : BinnedObject) : ℕ → List ℕ :=
  fun c =>
    if c ∈ obj.clusters then appendToBucket maxIndicesPerClusterPerType (buckets c) obj.stableIndex
    else buckets c

/-- Modelled from the spec: ClustererBin over one typed sequence, in insertion order,
starting from cleared buckets. -/
def binObjects (maxIndicesPerClusterPerType : ℕ) (objs : List BinnedObject) : ℕ → List ℕ :=
  objs.foldl (binObject maxIndicesPerClusterPerType) (fun _ => [])

/-- Modelled from the spec: the final reduction pass of spec 5 over the private buckets of
the workers, ordered by worker index then object insertion order, under the same
per-bucket rules. -/
def mergeWorkers (maxIndicesPerClusterPerType : ℕ) (workers : List (ℕ → List ℕ)) :
    ℕ → List ℕ :=
  fun c =>
    ((workers.map (fun w => w c)).flatten).foldl (appendToBucket maxIndicesPerClusterPerType) []

/-- Modelled from the spec: the parallel design of spec 5.  The typed sequence is
partitioned into one share per worker, every worker bins its share into private buckets,
and the private buckets are merged by `mergeWorkers`. -/
def binParallel (maxIndicesPerClusterPerType : ℕ) (shares : List (List BinnedObject)) :
    ℕ → List ℕ :=
  mergeWorkers maxIndicesPerClusterPerType
    (shares.map (binObjects maxIndicesPerClusterPerType))

end

/-! ## IndexPacker -/

/-- The six per-type buckets of one cluster (spec 3, cluster bucket). -/
structure ClusterBuckets where
  pointLights : List ℕ
  spotLights : List ℕ
  reflectionProbes : List ℕ
  giProbes : List ℕ
  decals : List ℕ
  fogDensityVolumes : List ℕ

/-- The buckets of a cluster in the fixed type order: point lights, spot lights, refl
probes, GI probes, decals and fog volumes. -/
def ClusterBuckets.inTypeOrder (c : ClusterBuckets) : List (List ℕ) :=
  [c.pointLights, c.spotLights, c.reflectionProbes, c.giProbes, c.decals, c.fogDensityVolumes]

/-- One `(offset, count)` pair of a packed cluster record (spec 3). -/
structure PackedRange where
  offset : ℕ
  count : ℕ
deriving DecidableEq

/-- The output of IndexPacker: one record of `(offset, count)` pairs per cluster and the
flat index array. -/
structure PackerOutput where
  clusterRecords : List (List PackedRange)
  indices : List ℕ
deriving DecidableEq

/-- The fatal configuration error of IndexPacker. -/
inductive PackError where
  | indexBufferOverflow
deriving DecidableEq

/-- The state of the single pass of IndexPacker. -/
structure PackerState where
  runningOffset : ℕ
  indices : List ℕ
deriving DecidableEq

/-- Modelled from the spec: IndexPacker over the buckets of one cluster (spec 4.5), which
is not among the sources: for each type in the fixed order the bucket's contents are
appended to `indices`, `(runningOffset, bucket.count)` is recorded and `runningOffset`
advances by `bucket.count`.  A bucket that would take `indices` past `maxTotalIndices` is
the fatal configuration error. -/
def packBuckets (maxTotalIndices : ℕ) :
    PackerState → List (List ℕ) → Except PackError (List PackedRange × PackerState)
  | st, [] => .ok ([], st)
  | st, bucket :: rest =>
    if maxTotalIndices < st.runningOffset + bucket.length then .error .indexBufferOverflow
    else
      match packBuckets maxTotalIndices
          ⟨st.runningOffset + bucket.length, st.indices ++ bucket⟩ rest with
      | .error e => .error e
      | .ok (ranges, st') => .ok (⟨st.runningOffset, bucket.length⟩ :: ranges, st')

/-- Modelled from the spec: the single pass of IndexPacker over all clusters, linear
cluster index ascending (spec 4.5). -/
def packClusters (maxTotalIndices : ℕ) :
    PackerState → List ClusterBuckets →
      Except PackError (List (List PackedRange) × PackerState)
  | st, [] => .ok ([], st)
  | st, c :: cs =>
    match packBuckets maxTotalIndices st c.inTypeOrder with
    | .error e => .error e
    | .ok (record, st') =>
      match packClusters maxTotalIndices st' cs with
      | .error e => .error e
      | .ok (records, st'') => .ok (record :: records, st'')

/-- Modelled from the spec: IndexPacker (spec 4.5), from the buckets of a frame to the
packed cluster records and the flat index array. -/
def pack (maxTotalIndices : ℕ) (clusters : List ClusterBuckets) :
    Except PackError PackerOutput :=
  match packClusters maxTotalIndices ⟨0, []⟩ clusters with
  | .error e => .error e
  | .ok (records, st) => .ok ⟨records, st.indices⟩

/-- The total number of indices the buckets of a frame hold. -/
def totalBucketCount (clusters : List ClusterBuckets) : ℕ :=
  (clusters.map (fun c => (c.inTypeOrder.map List.length).sum)).sum

/-- All bucket contents of a frame, cluster by cluster and type by type. -/
def allBucketIndices (clusters : List ClusterBuckets) : List ℕ :=
  (clusters.map (fun c => c.inTypeOrder.flatten)).flatten

/-- The sum of `count` over all records and all their pairs. -/
def totalPackedCount (records : List (List PackedRange)) : ℕ :=
  (records.map (fun r => (r.map PackedRange.count).sum)).sum

/-! ## ResourceManager (`Resources/Core/ResourceManager.inl.h`) -/

/-- The exception class of `Util/Exception.h`, reduced to its error text: `EXCEPTION(x)`
builds it from the text `x`. -/
structure Exception where
  err : String
deriving DecidableEq

/-- Modelled from the spec: the hook type `Types<Type>::Hook`, whose declaration is not
among the sources and which the spec leaves to the resource collaborator.  It has the three
members the code of `ResourceManager.inl.h` uses: the `uuid` (the filename), the
`referenceCounter` (an integer, `++` and `--` without overflow) and the `resource` pointer
(an address; distinct live resources have distinct addresses). -/
structure Hook where
  uuid : String
  referenceCounter : ℤ
  resource : ℕ
deriving DecidableEq

namespace ResourceManager

/-- Source: `ResourceManager::find` for a filename.  The iterator is the index of the
first hook with `it->uuid == filename`, and `container.length` stands for `end()`. -/
def find (filename : String) (container : List Hook) : ℕ :=
  container.findIdx (fun it => decide (it.uuid = filename))

/-- Source: `ResourceManager::find` for a resource pointer (the second overload).  The
iterator is the index of the first hook with `it->resource == resource`, and
`container.length` stands for `end()`. -/
def findResource (resource : ℕ) (container : List Hook) : ℕ :=
  container.findIdx (fun it => decide (it.resource = resource))

/-- Source: `ResourceManager::allocAndLoadRsrc`.  `newInstance` is what
`new Type()` followed by `newInstance->load(filename)` does: it yields the pointer of the
loaded instance or throws a `std::exception` with some `what()`, which is rethrown as
`EXCEPTION(e.what())`. -/
def allocAndLoadRsrc (newInstance : Except String ℕ) : Except Exception ℕ :=
  match newInstance with
  | .ok resource => .ok resource
  | .error what => .error ⟨what⟩

/-- Source: `ResourceManager::load`.  The result is the container after the call together
with the returned hook or the exception thrown.  If `find` reaches a hook its
`referenceCounter` is incremented; otherwise a hook with `uuid = filename` and
`referenceCounter = 1` is created, the resource is loaded into it and the hook is pushed
back; an exception of `allocAndLoadRsrc` leaves before the `push_back`. -/
def load (newInstance : Except String ℕ) (filename : String) (container : List Hook) :
    List Hook × Except Exception Hook :=
  match container[find filename container]? with
  | some it =>
    (container.set (find filename container)
        { it with referenceCounter := it.referenceCounter + 1 },
      .ok { it with referenceCounter := it.referenceCounter + 1 })
  | none =>
    match allocAndLoadRsrc newInstance with
    | .error e => (container, .error e)
    | .ok resource => (container ++ [⟨filename, 1, resource⟩], .ok ⟨filename, 1, resource⟩)

/-- Source: `ResourceManager::unloadR`.  The result is the container after the call
together with the exception thrown, if any.  `debugEnabled` is `DEBUG_ENABLED == 1`, under
which the two `RASSERT_THROW_EXCEPTION` lines throw when their condition holds. -/
def unloadR (debugEnabled : Bool) (hook : Hook) (container : List Hook) :
    List Hook × Except Exception Unit :=
  match container[findResource hook.resource container]? with
  | none => (container, .error ⟨"Resource hook incorrect (\"" ++ hook.uuid ++ "\")"⟩)
  | some it =>
    if debugEnabled = true ∧ it.uuid ≠ hook.uuid then
      (container, .error ⟨"Reverse assertion failed: it->uuid != hook.uuid"⟩)
    else if debugEnabled = true ∧ it.referenceCounter ≠ hook.referenceCounter then
      (container,
        .error ⟨"Reverse assertion failed: it->referenceCounter != hook.referenceCounter"⟩)
    else if it.referenceCounter - 1 = 0 then
      (container.eraseIdx (findResource hook.resource container), .ok ())
    else
      (container.set (findResource hook.resource container)
        { it with referenceCounter := it.referenceCounter - 1 }, .ok ())

/-- The states of the container reachable from the empty container by `load` and `unloadR`
calls.  A `load` may throw; the pointer of a newly loaded resource is not the pointer of a
resource that is still in the container; `unloadR` may be called with any hook. -/
inductive Reachable (debugEnabled : Bool) : List Hook → Prop where
  | empty : Reachable debugEnabled []
  | load (c : List Hook) (newInstance : Except String ℕ) (filename : String) :
      Reachable debugEnabled c →
      (∀ resource, newInstance = .ok resource → ∀ it ∈ c, it.resource ≠ resource) →
      Reachable debugEnabled (load newInstance filename c).1
  | unloadR (c : List Hook) (hook : Hook) :
      Reachable debugEnabled c →
      Reachable debugEnabled (unloadR debugEnabled hook c).1

/-- The reference-count invariant of the container: the uuids of the hooks are pairwise
distinct and every hook has `referenceCounter >= 1`. -/
def RefCountInvariant (c : List Hook) : Prop :=
  (c.map Hook.uuid).Nodup ∧ ∀ it ∈ c, 1 ≤ it.referenceCounter

/-- A run of `load(filename)` calls, one per entry of `newInstances` (what the allocation
of that call would do); `none` as soon as one of them throws. -/
def loadAll (filename : String) : List (Except String ℕ) → List Hook → Option (List Hook)
  | [], c => some c
  | newInstance :: rest, c =>
    match load newInstance filename c with
    | (c', .ok _) => loadAll filename rest c'
    | (_, .error _) => none

/-- A run of `n` calls `unloadR(hook)` on the hook that `load(filename)` returned.  The
returned reference denotes the entry of the container with `uuid = filename`, whose
members are read at each call; `none` as soon as the entry is gone or a call throws. -/
def unloadReturned (debugEnabled : Bool) (filename : String) : ℕ → List Hook → Option (List Hook)
  | 0, container => some container
  | n + 1, container =>
    match container[find filename container]? with
    | none => none
    | some hook =>
      match unloadR debugEnabled hook container with
      | (c', .ok _) => unloadReturned debugEnabled filename n c'
      | (_, .error _) => none

end ResourceManager

/-! ## File (`util/File.cpp`) -/

/-- The flag constants of `File.h`, which is not among the sources: the open flags, the two
endianness flags and the file types.  They are parameters of the model. -/
structure FileFlags where
  OF_READ : ℕ
  OF_WRITE : ℕ
  OF_APPEND : ℕ
  OF_BINARY : ℕ
  E_LITTLE_ENDIAN : ℕ
  E_BIG_ENDIAN : ℕ
  FT_C : ℕ
  FT_ZIP : ℕ

/-- The members of `File` the code uses: the `FILE*` (`none` is `nullptr`) and the `U8`
flags. -/
structure File where
  file : Option ℕ
  flags : ℕ
deriving DecidableEq

/-- How a call on a `File` can fail: a failed `ANKI_ASSERT` or a thrown exception. -/
inductive FileError where
  | assertion
  | exception (err : String)
deriving DecidableEq

namespace File

/-- Source: `File::getMachineEndianness`; `littleEndianMachine` says whether the first
byte of the integer `1` is `1`. -/
def getMachineEndianness (K : FileFlags) (littleEndianMachine : Bool) : ℕ :=
  if littleEndianMachine then K.E_LITTLE_ENDIAN else K.E_BIG_ENDIAN

/-- Source: `File::open`.  `filename` is `none` for a null pointer and `fopenResult` is
what `fopen` returns.  The assertions are those of the code, in its order; the `U8`
assignments are taken modulo 256. -/
def «open» (K : FileFlags) (littleEndianMachine : Bool) (fopenResult : Option ℕ)
    (self : File) (filename : Option String) (flags_ : ℕ) : Except FileError File :=
  if filename = none then .error .assertion
  else if ¬ (self.file = none ∧ self.flags = 0) then .error .assertion
  else if ¬ ((flags_ &&& (K.OF_READ ||| K.OF_WRITE ||| K.OF_APPEND ||| K.OF_BINARY
      ||| K.E_LITTLE_ENDIAN ||| K.E_BIG_ENDIAN)) ≠ 0) then .error .assertion
  else if ¬ ((flags_ &&& K.OF_READ) ≠ (flags_ &&& K.OF_WRITE)) then .error .assertion
  else if flags_ &&& K.OF_READ = 0 ∧ flags_ &&& K.OF_WRITE = 0 ∧ flags_ &&& K.OF_APPEND = 0
    then .error .assertion
  else
    match fopenResult with
    | none => .error (.exception "Failed to open file")
    | some handle =>
      let flags := (self.flags ||| (flags_ ||| K.FT_C)) % 256
      if flags_ &&& (K.E_BIG_ENDIAN ||| K.E_LITTLE_ENDIAN) = 0 then
        .ok ⟨some handle, (flags ||| getMachineEndianness K littleEndianMachine) % 256⟩
      else if ¬ ((flags_ &&& K.E_BIG_ENDIAN) ≠ (flags_ &&& K.E_LITTLE_ENDIAN)) then
        .error .assertion
      else .ok ⟨some handle, flags⟩

/-- Source: `File::readU32`, with `File::read` inlined.  `bytes` is what `fread` delivers
(`none` when fewer than four bytes were read).  The four bytes are taken in the byte order
of the file, `E_BIG_ENDIAN` when that flag is set and `E_LITTLE_ENDIAN` otherwise. -/
def readU32 (K : FileFlags) (littleEndianMachine : Bool) (self : File)
    (bytes : Option (ℕ × ℕ × ℕ × ℕ)) : Except FileError ℕ :=
  if self.file = none then .error .assertion
  else if self.flags = 0 then .error .assertion
  else if self.flags &&& K.OF_READ = 0 then .error .assertion
  else if self.flags &&& K.OF_BINARY = 0 then .error .assertion
  else if ¬ ((self.flags &&& K.E_BIG_ENDIAN) ≠ (self.flags &&& K.E_LITTLE_ENDIAN)) then
    .error .assertion
  else if self.flags &&& K.FT_C = 0 then .error .assertion
  else
    match bytes with
    | none => .error (.exception "File read failed")
    | some (c0, c1, c2, c3) =>
      let littleValue := (c0 ||| (c1 <<< 8) ||| (c2 <<< 16) ||| (c3 <<< 24)) % 2 ^ 32
      let bigValue := ((c0 <<< 24) ||| (c1 <<< 16) ||| (c2 <<< 8) ||| c3) % 2 ^ 32
      let out := if littleEndianMachine then littleValue else bigValue
      let machineEndianness := getMachineEndianness K littleEndianMachine
      let fileEndianness :=
        if self.flags &&& K.E_BIG_ENDIAN ≠ 0 then K.E_BIG_ENDIAN else K.E_LITTLE_ENDIAN
      if machineEndianness = fileEndianness then .ok out
      else if machineEndianness = K.E_BIG_ENDIAN ∧ fileEndianness = K.E_LITTLE_ENDIAN then
        .ok littleValue
      else .ok bigValue

end File

/-! ## Lemmas on the conversions -/

theorem truncF32_of_nonneg {f : ℝ} (hf : 0 ≤ f) : truncF32 f = ⌊f⌋ := by
  unfold truncF32
  rw [if_pos hf]

theorem toU32_of_nonneg {f : ℝ} (hf : 0 ≤ f) (hlt : ⌊f⌋₊ < 2 ^ 32) :
    toU32 f = some ⌊f⌋₊ := by
  have h0 : (0 : ℤ) ≤ ⌊f⌋ := Int.floor_nonneg.mpr hf
  have hnat : (⌊f⌋).toNat = ⌊f⌋₊ := Int.floor_toNat f
  have hlt2 : ⌊f⌋ < 2 ^ 32 := by
    have : ((⌊f⌋).toNat : ℤ) < 2 ^ 32 := by
      rw [hnat]
      exact_mod_cast hlt
    rwa [Int.toNat_of_nonneg h0] at this
  unfold toU32
  rw [truncF32_of_nonneg hf, if_pos ⟨h0, hlt2⟩, hnat]

theorem clusterOperand_of_consistent (magic : ClustererMagicValues) (n : Vec3) (o : ℝ)
    (hx : magic.m_val0.x = n.x / magic.m_val1.x) (hy : magic.m_val0.y = n.y / magic.m_val1.x)
    (hz : magic.m_val0.z = n.z / magic.m_val1.x) (hw : magic.m_val0.w = o / magic.m_val1.x)
    (W : Vec3) :
    dot magic.m_val0.xyz W - magic.m_val0.w = (dot n W - o) / magic.m_val1.x := by
  simp only [dot, Vec4.xyz, hx, hy, hz, hw]
  ring

/-- C2: for consistent magic values (`val0 = (n, o) / val1.x` with `val1.x > 0`, where
`dot(n, W) - o` is the distance of `W` past the near plane), `computeClusterNearf` undoes
`computeClusterKf` at every position of non-negative depth, and `computeClusterKf` undoes
`computeClusterNearf` at every `k >= 0`. -/
theorem computeClusterNearf_computeClusterKf_inverse (magic : ClustererMagicValues)
    (n : Vec3) (o : ℝ) (hpos : 0 < magic.m_val1.x)
    (hx : magic.m_val0.x = n.x / magic.m_val1.x) (hy : magic.m_val0.y = n.y / magic.m_val1.x)
    (hz : magic.m_val0.z = n.z / magic.m_val1.x) (hw : magic.m_val0.w = o / magic.m_val1.x) :
    (∀ W : Vec3, 0 ≤ dot n W - o →
      computeClusterNearf magic (computeClusterKf magic W) = (dot n W - o) + magic.m_val1.y) ∧
    (∀ (k : ℝ) (W : Vec3), 0 ≤ k →
      dot n W - o = computeClusterNearf magic k - magic.m_val1.y →
      computeClusterKf magic W = k) := by
  constructor
  · intro W hd
    have hop := clusterOperand_of_consistent magic n o hx hy hz hw W
    have hnn : 0 ≤ (dot n W - o) / magic.m_val1.x := div_nonneg hd hpos.le
    unfold computeClusterNearf computeClusterKf
    rw [hop, mul_assoc, Real.mul_self_sqrt hnn]
    field_simp
  · intro k W hk hd
    have hop := clusterOperand_of_consistent magic n o hx hy hz hw W
    unfold computeClusterKf
    rw [hop, hd]
    unfold computeClusterNearf
    have : (magic.m_val1.x * k * k + magic.m_val1.y - magic.m_val1.y) / magic.m_val1.x
        = k * k := by
      field_simp
      ring
    rw [this, Real.sqrt_mul_self hk]

theorem computeClusterNearf_computeClusterKf_inverse_witness :
    computeClusterNearf ⟨⟨0, 0, 1 / 2, 3 / 2⟩, ⟨2, 1, 0, 0⟩⟩
        (computeClusterKf ⟨⟨0, 0, 1 / 2, 3 / 2⟩, ⟨2, 1, 0, 0⟩⟩ ⟨0, 0, 11⟩)
      = (dot ⟨0, 0, 1⟩ ⟨0, 0, 11⟩ - 3) + 1 ∧
    computeClusterKf ⟨⟨0, 0, 1 / 2, 3 / 2⟩, ⟨2, 1, 0, 0⟩⟩ ⟨0, 0, 11⟩ = 2 :=
  ⟨(computeClusterNearf_computeClusterKf_inverse ⟨⟨0, 0, 1 / 2, 3 / 2⟩, ⟨2, 1, 0, 0⟩⟩
      ⟨0, 0, 1⟩ 3 (by norm_num) (by norm_num) (by norm_num) (by norm_num) (by norm_num)).1
      ⟨0, 0, 11⟩ (by norm_num [dot]),
   (computeClusterNearf_computeClusterKf_inverse ⟨⟨0, 0, 1 / 2, 3 / 2⟩, ⟨2, 1, 0, 0⟩⟩
      ⟨0, 0, 1⟩ 3 (by norm_num) (by norm_num) (by norm_num) (by norm_num) (by norm_num)).2
      2 ⟨0, 0, 11⟩ (by norm_num) (by norm_num [dot, computeClusterNearf])⟩

/-! ## The flat cluster index -/

theorem u32_index_arith (k y x cx cy : ℕ) (h : k * (cx * cy) + y * cx + x < 2 ^ 32) :
    ((((k * ((cx * cy) % 2 ^ 32)) % 2 ^ 32 + (y * cx) % 2 ^ 32) % 2 ^ 32 + x) % 2 ^ 32)
      = k * (cx * cy) + y * cx + x := by
  rw [Nat.mul_mod_mod]
  generalize k * (cx * cy) = a at h ⊢
  generalize y * cx = b at h ⊢
  omega

theorem sqrt_four : Real.sqrt (4 : ℝ) = 2 := by
  have h : (4 : ℝ) = 2 * 2 := by norm_num
  rw [h, Real.sqrt_mul_self (by norm_num)]

/-! ## IndexPacker -/

theorem packBuckets_spec (maxTotalIndices : ℕ) :
    ∀ (buckets : List (List ℕ)) (st : PackerState), st.runningOffset ≤ maxTotalIndices →
      (maxTotalIndices < st.runningOffset + (buckets.map List.length).sum ∧
        packBuckets maxTotalIndices st buckets = .error .indexBufferOverflow) ∨
      (st.runningOffset + (buckets.map List.length).sum ≤ maxTotalIndices ∧
        ∃ ranges, packBuckets maxTotalIndices st buckets =
            .ok (ranges, ⟨st.runningOffset + (buckets.map List.length).sum,
              st.indices ++ buckets.flatten⟩) ∧
          ranges.length = buckets.length ∧
          (ranges.map PackedRange.count).sum = (buckets.map List.length).sum ∧
          ∀ p ∈ ranges, st.runningOffset ≤ p.offset ∧
            p.offset + p.count ≤ st.runningOffset + (buckets.map List.length).sum) := by
  intro buckets
  induction buckets with
  | nil =>
    intro st hst
    right
    refine ⟨by simpa using hst, [], ?_, rfl, rfl, ?_⟩
    · simp [packBuckets]
    · intro p hp
      simp at hp
  | cons b rest ih =>
    intro st hst
    by_cases hb : maxTotalIndices < st.runningOffset + b.length
    · left
      refine ⟨?_, ?_⟩
      · simp only [List.map_cons, List.sum_cons]
        omega
      · simp [packBuckets, hb]
    · have hle : st.runningOffset + b.length ≤ maxTotalIndices := not_lt.mp hb
      rcases ih ⟨st.runningOffset + b.length, st.indices ++ b⟩ hle with
        ⟨hgt, herr⟩ | ⟨hfit, ranges, hok, hlen, hsum, hall⟩
      · left
        refine ⟨?_, ?_⟩
        · simp only [List.map_cons, List.sum_cons]
          simp only at hgt
          omega
        · simp [packBuckets, hb, herr]
      · right
        simp only at hfit hok hall
        refine ⟨?_, ⟨st.runningOffset, b.length⟩ :: ranges, ?_, ?_, ?_, ?_⟩
        · simp only [List.map_cons, List.sum_cons]
          omega
        · simp only [packBuckets, if_neg hb, hok, List.map_cons, List.sum_cons,
            List.flatten_cons, List.append_assoc, Nat.add_assoc]
        · simp [hlen]
        · simp [hsum]
        · intro p hp
          simp only [List.map_cons, List.sum_cons]
          rcases List.mem_cons.mp hp with rfl | hp
          · simp only
            omega
          · have := hall p hp
            omega

theorem packClusters_spec (maxTotalIndices : ℕ) :
    ∀ (clusters : List ClusterBuckets) (st : PackerState),
      st.runningOffset ≤ maxTotalIndices →
      (maxTotalIndices < st.runningOffset + totalBucketCount clusters ∧
        packClusters maxTotalIndices st clusters = .error .indexBufferOverflow) ∨
      (st.runningOffset + totalBucketCount clusters ≤ maxTotalIndices ∧
        ∃ records, packClusters maxTotalIndices st clusters =
            .ok (records, ⟨st.runningOffset + totalBucketCount clusters,
              st.indices ++ allBucketIndices clusters⟩) ∧
          records.length = clusters.length ∧
          totalPackedCount records = totalBucketCount clusters ∧
          ∀ r ∈ records, r.length = TYPED_OBJECT_COUNT ∧
            ∀ p ∈ r, st.runningOffset ≤ p.offset ∧
              p.offset + p.count ≤ st.runningOffset + totalBucketCount clusters) := by
  intro clusters
  induction clusters with
  | nil =>
    intro st hst
    right
    refine ⟨by simpa [totalBucketCount] using hst, [], ?_, rfl, rfl, ?_⟩
    · simp [packClusters, totalBucketCount, allBucketIndices]
    · intro r hr
      simp at hr
  | cons c cs ih =>
    intro st hst
    have htot : totalBucketCount (c :: cs) =
        (c.inTypeOrder.map List.length).sum + totalBucketCount cs := by
      simp [totalBucketCount]
    have hall : allBucketIndices (c :: cs) = c.inTypeOrder.flatten ++ allBucketIndices cs := by
      simp [allBucketIndices]
    rcases packBuckets_spec maxTotalIndices c.inTypeOrder st hst with
      ⟨hgt, herr⟩ | ⟨hfit, record, hok, hlen, hsum, hrec⟩
    · left
      refine ⟨by omega, ?_⟩
      simp [packClusters, herr]
    · rcases ih ⟨st.runningOffset + (c.inTypeOrder.map List.length).sum,
          st.indices ++ c.inTypeOrder.flatten⟩ hfit with
        ⟨hgt2, herr2⟩ | ⟨hfit2, records, hok2, hlen2, hsum2, hrecs⟩
      · left
        simp only at hgt2
        refine ⟨by omega, ?_⟩
        simp [packClusters, hok, herr2]
      · right
        simp only at hfit2 hok2 hrecs
        refine ⟨by omega, record :: records, ?_, ?_, ?_, ?_⟩
        · simp only [packClusters, hok, hok2, htot, hall, List.append_assoc, Nat.add_assoc]
        · simp [hlen2]
        · simp only [totalPackedCount, List.map_cons, List.sum_cons] at hsum2 ⊢
          rw [htot, hsum, hsum2]
        · intro r hr
          rcases List.mem_cons.mp hr with rfl | hr
          · refine ⟨by rw [hlen]; rfl, ?_⟩
            intro p hp
            have := hrec p hp
            omega
          · refine ⟨(hrecs r hr).1, ?_⟩
            intro p hp
            have := (hrecs r hr).2 p hp
            omega

theorem allBucketIndices_length (clusters : List ClusterBuckets) :
    (allBucketIndices clusters).length = totalBucketCount clusters := by
  induction clusters with
  | nil => rfl
  | cons c cs ih =>
    simp only [allBucketIndices, totalBucketCount, List.map_cons, List.flatten_cons,
      List.length_append, List.sum_cons, List.length_flatten] at ih ⊢
    rw [ih]

theorem pack_spec (maxTotalIndices : ℕ) (clusters : List ClusterBuckets) :
    (maxTotalIndices < totalBucketCount clusters ∧
      pack maxTotalIndices clusters = .error .indexBufferOverflow) ∨
    (totalBucketCount clusters ≤ maxTotalIndices ∧
      ∃ records, pack maxTotalIndices clusters = .ok ⟨records, allBucketIndices clusters⟩ ∧
        records.length = clusters.length ∧
        totalPackedCount records = totalBucketCount clusters ∧
        ∀ r ∈ records, r.length = TYPED_OBJECT_COUNT ∧
          ∀ p ∈ r, p.offset + p.count ≤ totalBucketCount clusters) := by
  rcases packClusters_spec maxTotalIndices clusters ⟨0, []⟩ (Nat.zero_le _) with
    ⟨hgt, herr⟩ | ⟨hfit, records, hok, hlen, hsum, hrecs⟩
  · left
    simp only [Nat.zero_add] at hgt
    exact ⟨hgt, by simp [pack, herr]⟩
  · right
    simp only [Nat.zero_add, List.nil_append] at hfit hok hrecs
    refine ⟨hfit, records, by simp [pack, hok], hlen, hsum, ?_⟩
    intro r hr
    exact ⟨(hrecs r hr).1, fun p hp => ((hrecs r hr).2 p hp).2⟩

/-- C6: in every output of IndexPacker the counts of all clusters and all six types sum to
`indices.length`, every record holds six pairs, and every packed `(offset, count)` pair
satisfies `offset + count <= indices.length`. -/
theorem pack_packing_invariant (maxTotalIndices : ℕ) (clusters : List ClusterBuckets)
    (out : PackerOutput) (h : pack maxTotalIndices clusters = .ok out) :
    totalPackedCount out.clusterRecords = out.indices.length ∧
    ∀ r ∈ out.clusterRecords, r.length = TYPED_OBJECT_COUNT ∧
      ∀ p ∈ r, p.offset + p.count ≤ out.indices.length := by
  rcases pack_spec maxTotalIndices clusters with
    ⟨_, herr⟩ | ⟨_, records, hok, _, hsum, hrecs⟩
  · rw [herr] at h
    cases h
  · rw [hok] at h
    cases h
    simp only [allBucketIndices_length]
    exact ⟨hsum, hrecs⟩

theorem pack_packing_invariant_witness :
    totalPackedCount [[⟨0, 2⟩, ⟨2, 0⟩, ⟨2, 1⟩, ⟨3, 0⟩, ⟨3, 0⟩, ⟨3, 0⟩],
        [⟨3, 0⟩, ⟨3, 1⟩, ⟨4, 0⟩, ⟨4, 0⟩, ⟨4, 2⟩, ⟨6, 0⟩]] =
      [7, 8, 9, 7, 4, 5].length ∧
    ∀ r ∈ [[(⟨0, 2⟩ : PackedRange), ⟨2, 0⟩, ⟨2, 1⟩, ⟨3, 0⟩, ⟨3, 0⟩, ⟨3, 0⟩],
        [⟨3, 0⟩, ⟨3, 1⟩, ⟨4, 0⟩, ⟨4, 0⟩, ⟨4, 2⟩, ⟨6, 0⟩]],
      r.length = TYPED_OBJECT_COUNT ∧
        ∀ p ∈ r, p.offset + p.count ≤ [7, 8, 9, 7, 4, 5].length :=
  pack_packing_invariant 6 [⟨[7, 8], [], [9], [], [], []⟩, ⟨[], [7], [], [], [4, 5], []⟩]
    ⟨[[⟨0, 2⟩, ⟨2, 0⟩, ⟨2, 1⟩, ⟨3, 0⟩, ⟨3, 0⟩, ⟨3, 0⟩],
      [⟨3, 0⟩, ⟨3, 1⟩, ⟨4, 0⟩, ⟨4, 0⟩, ⟨4, 2⟩, ⟨6, 0⟩]], [7, 8, 9, 7, 4, 5]⟩ rfl

/-- C9: IndexPacker fails, with the index buffer overflow error, if and only if the sum of
all bucket counts exceeds `maxTotalIndices`; and when it succeeds the flat index array
holds the contents of every bucket, none truncated. -/
theorem pack_error_iff_overflow (maxTotalIndices : ℕ) (clusters : List ClusterBuckets) :
    ((∃ e, pack maxTotalIndices clusters = .error e) ↔
      maxTotalIndices < totalBucketCount clusters) ∧
    (∀ out, pack maxTotalIndices clusters = .ok out →
      out.indices = allBucketIndices clusters ∧
      out.indices.length = totalBucketCount clusters) := by
  rcases pack_spec maxTotalIndices clusters with
    ⟨hgt, herr⟩ | ⟨hfit, records, hok, _, _, _⟩
  · refine ⟨⟨fun _ => hgt, fun _ => ⟨_, herr⟩⟩, ?_⟩
    intro out h
    rw [herr] at h
    cases h
  · refine ⟨⟨?_, fun h => absurd h (not_lt.mpr hfit)⟩, ?_⟩
    · rintro ⟨e, he⟩
      rw [hok] at he
      cases he
    · intro out h
      rw [hok] at h
      cases h
      exact ⟨rfl, allBucketIndices_length clusters⟩

theorem pack_error_iff_overflow_witness :
    ∃ e, pack 2 [⟨[7, 8], [], [9], [], [], []⟩] = .error e :=
  (pack_error_iff_overflow 2 [⟨[7, 8], [], [9], [], [], []⟩]).1.mpr (by decide)

/-! ## ClustererBin: the drop policy -/

theorem foldl_appendToBucket (N : ℕ) :
    ∀ (xs bucket : List ℕ), (bucket ++ xs).Nodup →
      xs.foldl (appendToBucket N) bucket = bucket ++ xs.take (N - bucket.length) := by
  intro xs
  induction xs with
  | nil => intro bucket _; simp
  | cons x rest ih =>
    intro bucket hnd
    have hx : x ∉ bucket := by
      intro hmem
      have := (List.nodup_append.mp hnd).2.2
      exact this hmem (List.mem_cons_self x rest)
    have hnd1 : (bucket ++ rest).Nodup := by
      refine hnd.sublist ?_
      exact List.Sublist.append_left (List.sublist_cons_self x rest) bucket
    rw [List.foldl_cons]
    by_cases hfull : N ≤ bucket.length
    · have hstep : appendToBucket N bucket x = bucket := by
        simp [appendToBucket, hx, hfull]
      rw [hstep, ih bucket hnd1]
      have h0 : N - bucket.length = 0 := by omega
      simp [h0]
    · have hstep : appendToBucket N bucket x = bucket ++ [x] := by
        simp [appendToBucket, hx, hfull]
      have hnd2 : ((bucket ++ [x]) ++ rest).Nodup := by
        simpa [List.append_assoc] using hnd
      rw [hstep, ih (bucket ++ [x]) hnd2]
      obtain ⟨m, hm⟩ : ∃ m, N - bucket.length = m + 1 := ⟨N - bucket.length - 1, by omega⟩
      have hm2 : N - (bucket ++ [x]).length = m := by
        simp only [List.length_append, List.length_singleton]
        omega
      rw [hm, hm2, List.take_succ_cons]
      simp

theorem foldl_binObject_apply (N : ℕ) (c : ℕ) :
    ∀ (objs : List BinnedObject) (buckets : ℕ → List ℕ),
      (objs.foldl (binObject N) buckets) c =
        ((objs.filter (fun o => decide (c ∈ o.clusters))).map BinnedObject.stableIndex).foldl
          (appendToBucket N) (buckets c) := by
  intro objs
  induction objs with
  | nil => intro buckets; rfl
  | cons o rest ih =>
    intro buckets
    rw [List.foldl_cons, ih]
    by_cases hc : c ∈ o.clusters
    · simp [List.filter_cons, hc, binObject]
    · simp [List.filter_cons, hc, binObject]

theorem filter_single_cluster (c : ℕ) (objs : List BinnedObject)
    (hc : ∀ o ∈ objs, o.clusters = [c]) :
    objs.filter (fun o => decide (c ∈ o.clusters)) = objs := by
  rw [List.filter_eq_self]
  intro o ho
  simp [hc o ho]

theorem binObjects_single_cluster (N c : ℕ) (objs : List BinnedObject)
    (hc : ∀ o ∈ objs, o.clusters = [c])
    (hnd : (objs.map BinnedObject.stableIndex).Nodup) :
    binObjects N objs c = (objs.take N).map BinnedObject.stableIndex := by
  unfold binObjects
  rw [foldl_binObject_apply, filter_single_cluster c objs hc,
    foldl_appendToBucket N _ [] (by simpa using hnd)]
  simp [List.map_take]

theorem take_flatten_map_take (N : ℕ) :
    ∀ (ls : List (List ℕ)) (n : ℕ), n ≤ N →
      ((ls.map (List.take N)).flatten).take n = (ls.flatten).take n := by
  intro ls
  induction ls with
  | nil => intro n _; rfl
  | cons l rest ih =>
    intro n hn
    simp only [List.map_cons, List.flatten_cons, List.take_append_eq_append_take,
      List.take_take, List.length_take]
    have h1 : min n N = n := Nat.min_eq_left hn
    rw [h1]
    by_cases hl : l.length ≤ N
    · rw [Nat.min_eq_right hl, ih (n - l.length) (by omega)]
    · have h2 : min N l.length = N := Nat.min_eq_left (by omega)
      have h3 : n - N = 0 := by omega
      have h4 : n - l.length = 0 := by omega
      rw [h2, h3, h4]
      simp

theorem sublist_flatten_map_take (N : ℕ) :
    ∀ ls : List (List ℕ), ((ls.map (List.take N)).flatten).Sublist ls.flatten := by
  intro ls
  induction ls with
  | nil => exact List.Sublist.refl _
  | cons l rest ih =>
    simp only [List.map_cons, List.flatten_cons]
    exact List.Sublist.append (List.take_sublist N l) ih

/-- C7 (amended): with `maxIndicesPerClusterPerType = N` and `N + 5` objects of one type
that all map to the same single cluster, the bucket of that cluster holds exactly the
stable indices of the first `N` objects, in insertion order, for the sequential pass and
for every split of the sequence into consecutive per-worker shares. -/
theorem binParallel_first_N_win (N c : ℕ) (objs : List BinnedObject)
    (shares : List (List BinnedObject)) (hlen : objs.length = N + 5)
    (hc : ∀ o ∈ objs, o.clusters = [c])
    (hnd : (objs.map BinnedObject.stableIndex).Nodup)
    (hshares : shares.flatten = objs) :
    binObjects N objs c = (objs.take N).map BinnedObject.stableIndex ∧
    binParallel N shares c = (objs.take N).map BinnedObject.stableIndex ∧
    (binParallel N shares c).length = N := by
  have hseq := binObjects_single_cluster N c objs hc hnd
  have hpar : binParallel N shares c = (objs.take N).map BinnedObject.stableIndex := by
    have hworker : ∀ s ∈ shares, binObjects N s c =
        (s.map BinnedObject.stableIndex).take N := by
      intro s hs
      have hsub : s.Sublist objs := by
        rw [← hshares]
        exact List.sublist_flatten_of_mem hs
      rw [binObjects_single_cluster N c s (fun o ho => hc o (hsub.subset ho))
        ((hsub.map _).nodup hnd), List.map_take]
    have hmap : (shares.map (binObjects N)).map (fun w => w c) =
        (shares.map (List.map BinnedObject.stableIndex)).map (List.take N) := by
      rw [List.map_map, List.map_map]
      exact List.map_congr_left (fun s hs => hworker s hs)
    have hflat : (shares.map (List.map BinnedObject.stableIndex)).flatten =
        objs.map BinnedObject.stableIndex := by
      rw [← hshares, List.map_flatten]
    have hsubl : (((shares.map (List.map BinnedObject.stableIndex)).map
        (List.take N)).flatten).Sublist (objs.map BinnedObject.stableIndex) := by
      rw [← hflat]
      exact sublist_flatten_map_take N _
    unfold binParallel mergeWorkers
    rw [hmap, foldl_appendToBucket N _ [] (by simpa using hsubl.nodup hnd)]
    simp only [List.nil_append, List.length_nil, Nat.sub_zero]
    rw [take_flatten_map_take N _ N le_rfl, hflat, List.map_take]
  refine ⟨hseq, hpar, ?_⟩
  rw [hpar, List.length_map, List.length_take, hlen]
  omega

theorem binParallel_first_N_win_witness :
    binObjects 1 [⟨10, [3]⟩, ⟨11, [3]⟩, ⟨12, [3]⟩, ⟨13, [3]⟩, ⟨14, [3]⟩, ⟨15, [3]⟩] 3 = [10] ∧
    binParallel 1 [[⟨10, [3]⟩, ⟨11, [3]⟩], [], [⟨12, [3]⟩, ⟨13, [3]⟩, ⟨14, [3]⟩, ⟨15, [3]⟩]] 3
      = [10] ∧
    (binParallel 1
      [[⟨10, [3]⟩, ⟨11, [3]⟩], [], [⟨12, [3]⟩, ⟨13, [3]⟩, ⟨14, [3]⟩, ⟨15, [3]⟩]] 3).length = 1 :=
  binParallel_first_N_win 1 3
    [⟨10, [3]⟩, ⟨11, [3]⟩, ⟨12, [3]⟩, ⟨13, [3]⟩, ⟨14, [3]⟩, ⟨15, [3]⟩]
    [[⟨10, [3]⟩, ⟨11, [3]⟩], [], [⟨12, [3]⟩, ⟨13, [3]⟩, ⟨14, [3]⟩, ⟨15, [3]⟩]]
    (by decide) (by decide) (by decide) (by decide)

/-- C7 as stated fails: with `N = 1` and six objects of one cluster, the partition that
gives worker 0 the objects 1, 3, 5 and worker 1 the objects 0, 2, 4 (each share in
insertion order) packs the stable index 11 of the second object, not the first one. -/
theorem binParallel_interleaved_counterexample :
    ¬ ∀ (N c : ℕ) (objs : List BinnedObject) (shares : List (List BinnedObject)),
      objs.length = N + 5 → (∀ o ∈ objs, o.clusters = [c]) →
      (objs.map BinnedObject.stableIndex).Nodup →
      shares.flatten.Perm objs → (∀ s ∈ shares, s.Sublist objs) →
      binParallel N shares c = (objs.take N).map BinnedObject.stableIndex := by
  intro h
  have h1 := h 1 3 [⟨10, [3]⟩, ⟨11, [3]⟩, ⟨12, [3]⟩, ⟨13, [3]⟩, ⟨14, [3]⟩, ⟨15, [3]⟩]
    [[⟨11, [3]⟩, ⟨13, [3]⟩, ⟨15, [3]⟩], [⟨10, [3]⟩, ⟨12, [3]⟩, ⟨14, [3]⟩]]
    (by decide) (by decide) (by decide) (by decide) (by decide)
  revert h1
  decide

/-! ## Shadow cascades -/

theorem rpow_inv_rpow {x p : ℝ} (hx : 0 ≤ x) (hp : 0 < p) : (x ^ p) ^ (1 / p) = x := by
  rw [← Real.rpow_mul hx, mul_one_div_cancel hp.ne', Real.rpow_one]

theorem toU32_natCast (m : ℕ) (hm : m < 2 ^ 32) : toU32 (m : ℝ) = some m := by
  have h := toU32_of_nonneg (Nat.cast_nonneg m) (by rw [Nat.floor_natCast]; exact hm)
  rwa [Nat.floor_natCast] at h

theorem computeShadowCascadeIndex_of_distance (count i : ℕ) (p d : ℝ) (hc : 1 ≤ count)
    (hc32 : count < 2 ^ 32) (hp : 0 < p) (hd : 0 < d) :
    computeShadowCascadeIndex (computeShadowCascadeDistance i p d count) p d count
      = some (min (i + 1) (count - 1)) := by
  have hcpos : (0 : ℝ) < (count : ℝ) := by exact_mod_cast hc
  have hbase : (0 : ℝ) ≤ ((i : ℝ) + 1) / (count : ℝ) := by positivity
  have hidx : ((((i : ℝ) + 1) / (count : ℝ)) ^ p * d / d) ^ (1 / p) * (count : ℝ)
      = (i : ℝ) + 1 := by
    rw [mul_div_assoc, div_self hd.ne', mul_one, rpow_inv_rpow hbase hp]
    field_simp
  have hmin : min ((i : ℝ) + 1) ((count : ℝ) - 1) = ((min (i + 1) (count - 1) : ℕ) : ℝ) := by
    rw [Nat.cast_min, Nat.cast_sub hc]
    simp
  unfold computeShadowCascadeIndex computeShadowCascadeDistance
  simp only [toF32]
  rw [hidx, hmin]
  exact toU32_natCast _ (lt_of_le_of_lt (Nat.min_le_right _ _) (by omega))

/-- C10 as stated fails: with four cascades, `p = 1` and `effectiveShadowDistance = 1` the
far plane of cascade 0 is mapped to cascade 1, not back to cascade 0. -/
theorem computeShadowCascadeIndex_not_reverse :
    computeShadowCascadeIndex (computeShadowCascadeDistance 0 1 1 4) 1 1 4 = some 1 ∧
    computeShadowCascadeIndex (computeShadowCascadeDistance 0 1 1 4) 1 1 4 ≠ some 0 := by
  have h := computeShadowCascadeIndex_of_distance 4 0 1 1 (by norm_num) (by norm_num)
    (by norm_num) (by norm_num)
  have h1 : computeShadowCascadeIndex (computeShadowCascadeDistance 0 1 1 4) 1 1 4 = some 1 := by
    rw [h]
    rfl
  refine ⟨h1, ?_⟩
  rw [h1]
  decide

/-- C10 (amended): over real arithmetic, for count >= 1 (a U32), p > 0 and d > 0 the far
plane of the last cascade is mapped back to the last cascade:
`computeShadowCascadeIndex(computeShadowCascadeDistance(count - 1, p, d, count), p, d, count)`
is `count - 1`. -/
theorem computeShadowCascadeIndex_last_cascade (count : ℕ) (p d : ℝ) (hc : 1 ≤ count)
    (hc32 : count < 2 ^ 32) (hp : 0 < p) (hd : 0 < d) :
    computeShadowCascadeIndex (computeShadowCascadeDistance (count - 1) p d count) p d count
      = some (count - 1) := by
  have h := computeShadowCascadeIndex_of_distance count (count - 1) p d hc hc32 hp hd
  have e : min (count - 1 + 1) (count - 1) = count - 1 := by omega
  rw [h, e]

theorem computeShadowCascadeIndex_last_cascade_witness :
    computeShadowCascadeIndex (computeShadowCascadeDistance (4 - 1) 2 100 4) 2 100 4
      = some (4 - 1) :=
  computeShadowCascadeIndex_last_cascade 4 2 100 (by norm_num) (by norm_num) (by norm_num)
    (by norm_num)

/-- C11: for count >= 1 (a U32), p > 0, d > 0 and i < count, every distance with
`far(i-1) <= distance < far(i)`, where `far(j) = computeShadowCascadeDistance(j, p, d, count)`
and `far(-1) = 0`, is mapped by `computeShadowCascadeIndex` to cascade `i`. -/
theorem computeShadowCascadeIndex_of_mem_cascade (count i : ℕ) (p d distance : ℝ)
    (hc : 1 ≤ count) (hc32 : count < 2 ^ 32) (hi : i < count) (hp : 0 < p) (hd : 0 < d)
    (hlo : (if i = 0 then 0 else computeShadowCascadeDistance (i - 1) p d count) ≤ distance)
    (hhi : distance < computeShadowCascadeDistance i p d count) :
    computeShadowCascadeIndex distance p d count = some i := by
  have hcpos : (0 : ℝ) < (count : ℝ) := by exact_mod_cast hc
  have hp1 : 0 < 1 / p := one_div_pos.mpr hp
  have hupper : distance / d < (((i : ℝ) + 1) / (count : ℝ)) ^ p := by
    rw [div_lt_iff₀ hd]
    simpa [computeShadowCascadeDistance, toF32] using hhi
  have hlower : ((i : ℝ) / (count : ℝ)) ^ p ≤ distance / d := by
    rw [le_div_iff₀ hd]
    by_cases h0 : i = 0
    · subst h0
      rw [if_pos rfl] at hlo
      simpa [Real.zero_rpow hp.ne'] using hlo
    · rw [if_neg h0] at hlo
      have hcast : ((i - 1 : ℕ) : ℝ) + 1 = (i : ℝ) := by
        have : 1 ≤ i := Nat.one_le_iff_ne_zero.mpr h0
        rw [Nat.cast_sub this]
        simp
      simpa [computeShadowCascadeDistance, toF32, hcast] using hlo
  have hbase0 : (0 : ℝ) ≤ (i : ℝ) / (count : ℝ) := by positivity
  have hbase1 : (0 : ℝ) ≤ ((i : ℝ) + 1) / (count : ℝ) := by positivity
  have hx0 : 0 ≤ distance / d := le_trans (Real.rpow_nonneg hbase0 p) hlower
  have hroot_lo : (i : ℝ) / (count : ℝ) ≤ (distance / d) ^ (1 / p) := by
    have h := Real.rpow_le_rpow (Real.rpow_nonneg hbase0 p) hlower hp1.le
    rwa [rpow_inv_rpow hbase0 hp] at h
  have hroot_hi : (distance / d) ^ (1 / p) < ((i : ℝ) + 1) / (count : ℝ) := by
    have h := Real.rpow_lt_rpow hx0 hupper hp1
    rwa [rpow_inv_rpow hbase1 hp] at h
  have hidx_lo : (i : ℝ) ≤ (distance / d) ^ (1 / p) * (count : ℝ) := by
    rwa [div_le_iff₀ hcpos] at hroot_lo
  have hidx_hi : (distance / d) ^ (1 / p) * (count : ℝ) < (i : ℝ) + 1 := by
    rwa [lt_div_iff₀ hcpos] at hroot_hi
  have hicount : (i : ℝ) ≤ (count : ℝ) - 1 := by
    have : ((i + 1 : ℕ) : ℝ) ≤ (count : ℝ) := by exact_mod_cast hi
    push_cast at this
    linarith
  have hmin_lo : (i : ℝ) ≤ min ((distance / d) ^ (1 / p) * (count : ℝ)) ((count : ℝ) - 1) :=
    le_min hidx_lo hicount
  have hmin_hi : min ((distance / d) ^ (1 / p) * (count : ℝ)) ((count : ℝ) - 1)
      < (i : ℝ) + 1 := lt_of_le_of_lt (min_le_left _ _) hidx_hi
  have hmin0 : 0 ≤ min ((distance / d) ^ (1 / p) * (count : ℝ)) ((count : ℝ) - 1) :=
    le_trans (Nat.cast_nonneg i) hmin_lo
  have hfloor : ⌊min ((distance / d) ^ (1 / p) * (count : ℝ)) ((count : ℝ) - 1)⌋₊ = i :=
    (Nat.floor_eq_iff hmin0).mpr ⟨hmin_lo, hmin_hi⟩
  unfold computeShadowCascadeIndex
  simp only [toF32]
  rw [toU32_of_nonneg hmin0 (by rw [hfloor]; omega), hfloor]

theorem computeShadowCascadeIndex_of_mem_cascade_witness :
    computeShadowCascadeIndex 30 1 100 4 = some 1 :=
  computeShadowCascadeIndex_of_mem_cascade 4 1 1 100 30 (by norm_num) (by norm_num)
    (by norm_num) (by norm_num) (by norm_num)
    (by norm_num [computeShadowCascadeDistance, toF32])
    (by norm_num [computeShadowCascadeDistance, toF32])

/-! ## The flat cluster index as an injection -/

theorem flat_index_lt (x y k cx cy cz : ℕ) (hx : x < cx) (hy : y < cy) (hk : k < cz) :
    k * (cx * cy) + y * cx + x < cx * cy * cz := by
  have h1 : y * cx + x < cy * cx := by
    have : (y + 1) * cx ≤ cy * cx := Nat.mul_le_mul_right cx hy
    rw [Nat.add_mul, Nat.one_mul] at this
    omega
  have h2 : (k + 1) * (cx * cy) ≤ cz * (cx * cy) := Nat.mul_le_mul_right (cx * cy) hk
  rw [Nat.add_mul, Nat.one_mul] at h2
  have h3 : cy * cx = cx * cy := Nat.mul_comm cy cx
  have h4 : cz * (cx * cy) = cx * cy * cz := Nat.mul_comm cz (cx * cy)
  omega

theorem flat_index_decode (x y k cx cy : ℕ) (hx : x < cx) (hy : y < cy) :
    (k * (cx * cy) + y * cx + x) % cx = x ∧
    ((k * (cx * cy) + y * cx + x) / cx) % cy = y ∧
    (k * (cx * cy) + y * cx + x) / (cx * cy) = k := by
  have hcx : 0 < cx := by omega
  have hcy : 0 < cy := by omega
  have e : k * (cx * cy) + y * cx + x = x + cx * (y + cy * k) := by ring
  have hdiv : (k * (cx * cy) + y * cx + x) / cx = y + cy * k := by
    rw [e, Nat.add_mul_div_left _ _ hcx, Nat.div_eq_of_lt hx, Nat.zero_add]
  refine ⟨?_, ?_, ?_⟩
  · rw [e, Nat.add_mul_mod_self_left, Nat.mod_eq_of_lt hx]
  · rw [hdiv, Nat.add_mul_mod_self_left, Nat.mod_eq_of_lt hy]
  · rw [← Nat.div_div_eq_div_mul, hdiv, Nat.add_mul_div_left _ _ hcy, Nat.div_eq_of_lt hy,
      Nat.zero_add]

/-! ## ResourceManager -/

namespace ResourceManager

theorem find_cons (filename : String) (h : Hook) (rest : List Hook) :
    find filename (h :: rest) = if h.uuid = filename then 0 else find filename rest + 1 := by
  unfold find
  rw [List.findIdx_cons]
  by_cases hf : h.uuid = filename <;> simp [hf]

theorem findResource_cons (resource : ℕ) (h : Hook) (rest : List Hook) :
    findResource resource (h :: rest) =
      if h.resource = resource then 0 else findResource resource rest + 1 := by
  unfold findResource
  rw [List.findIdx_cons]
  by_cases hf : h.resource = resource <;> simp [hf]

theorem load_cons_eq (newInstance : Except String ℕ) (filename : String) (h : Hook)
    (rest : List Hook) (hf : h.uuid = filename) :
    load newInstance filename (h :: rest) =
      ({ h with referenceCounter := h.referenceCounter + 1 } :: rest,
        .ok { h with referenceCounter := h.referenceCounter + 1 }) := by
  unfold load
  rw [find_cons, if_pos hf]
  simp

theorem load_cons_ne (newInstance : Except String ℕ) (filename : String) (h : Hook)
    (rest : List Hook) (hf : h.uuid ≠ filename) :
    load newInstance filename (h :: rest) =
      (h :: (load newInstance filename rest).1, (load newInstance filename rest).2) := by
  unfold load
  rw [find_cons, if_neg hf, List.getElem?_cons_succ]
  cases rest[find filename rest]? with
  | some it => simp
  | none =>
    simp only
    cases allocAndLoadRsrc newInstance with
    | error e => simp
    | ok resource => simp

theorem unloadR_cons_eq (debugEnabled : Bool) (hook h : Hook) (rest : List Hook)
    (hr : h.resource = hook.resource) :
    unloadR debugEnabled hook (h :: rest) =
      if debugEnabled = true ∧ h.uuid ≠ hook.uuid then
        (h :: rest, .error ⟨"Reverse assertion failed: it->uuid != hook.uuid"⟩)
      else if debugEnabled = true ∧ h.referenceCounter ≠ hook.referenceCounter then
        (h :: rest,
          .error ⟨"Reverse assertion failed: it->referenceCounter != hook.referenceCounter"⟩)
      else if h.referenceCounter - 1 = 0 then (rest, .ok ())
      else ({ h with referenceCounter := h.referenceCounter - 1 } :: rest, .ok ()) := by
  unfold unloadR
  rw [findResource_cons, if_pos hr]
  simp

theorem unloadR_cons_ne (debugEnabled : Bool) (hook h : Hook) (rest : List Hook)
    (hr : h.resource ≠ hook.resource) :
    unloadR debugEnabled hook (h :: rest) =
      (h :: (unloadR debugEnabled hook rest).1, (unloadR debugEnabled hook rest).2) := by
  unfold unloadR
  rw [findResource_cons, if_neg hr, List.getElem?_cons_succ]
  cases rest[findResource hook.resource rest]? with
  | none => simp
  | some it =>
    simp only
    split_ifs <;> simp

theorem find_lt_length_iff (filename : String) (container : List Hook) :
    find filename container < container.length ↔ ∃ it ∈ container, it.uuid = filename := by
  unfold find
  rw [List.findIdx_lt_length]
  simp

theorem uuid_of_getElem?_find (filename : String) (container : List Hook) (it : Hook)
    (h : container[find filename container]? = some it) : it.uuid = filename := by
  obtain ⟨hlt, hget⟩ := List.getElem?_eq_some.mp h
  have hp := List.findIdx_getElem (w := hlt)
  rw [← hget]
  simpa using hp

theorem findResource_lt_length_iff (resource : ℕ) (container : List Hook) :
    findResource resource container < container.length ↔
      ∃ it ∈ container, it.resource = resource := by
  unfold findResource
  rw [List.findIdx_lt_length]
  simp

theorem resource_of_getElem?_findResource (resource : ℕ) (container : List Hook) (it : Hook)
    (h : container[findResource resource container]? = some it) : it.resource = resource := by
  obtain ⟨hlt, hget⟩ := List.getElem?_eq_some.mp h
  have hp := List.findIdx_getElem (w := hlt)
  rw [← hget]
  simpa using hp

/-- C13: `load(filename)`.  If a hook with `uuid == filename` is in the container, `find`
reaches the first such hook; `load` returns it with its `referenceCounter` incremented by
one and stores it in place, so the length of the container and every other hook are
unchanged.  Otherwise, when the resource loads without throwing, `load` appends exactly
the hook `(filename, 1, resource)` at the end of the container and returns it. -/
theorem load_spec (newInstance : Except String ℕ) (filename : String)
    (container : List Hook) :
    ((∃ hk ∈ container, hk.uuid = filename) →
      ∃ it, container[find filename container]? = some it ∧ it.uuid = filename ∧
        (load newInstance filename container).2 =
          .ok { it with referenceCounter := it.referenceCounter + 1 } ∧
        (load newInstance filename container).1 =
          container.set (find filename container)
            { it with referenceCounter := it.referenceCounter + 1 } ∧
        (load newInstance filename container).1.length = container.length ∧
        ∀ j, j ≠ find filename container →
          (load newInstance filename container).1[j]? = container[j]?) ∧
    ((∀ hk ∈ container, hk.uuid ≠ filename) → ∀ resource, newInstance = .ok resource →
      (load newInstance filename container).1 = container ++ [⟨filename, 1, resource⟩] ∧
      (load newInstance filename container).2 = .ok ⟨filename, 1, resource⟩) := by
  constructor
  · intro hex
    have hlt := (find_lt_length_iff filename container).mpr hex
    have hget : container[find filename container]? =
        some (container[find filename container]) := List.getElem?_eq_getElem hlt
    refine ⟨_, hget, uuid_of_getElem?_find filename container _ hget, ?_⟩
    have hload : load newInstance filename container =
        (container.set (find filename container)
          { container[find filename container] with
            referenceCounter := (container[find filename container]).referenceCounter + 1 },
          .ok { container[find filename container] with
            referenceCounter := (container[find filename container]).referenceCounter + 1 }) := by
      unfold load
      rw [hget]
    rw [hload]
    refine ⟨rfl, rfl, by simp, ?_⟩
    intro j hj
    simp only
    rw [List.getElem?_set, if_neg (Ne.symm hj)]
  · intro hne resource hres
    have hnot : ¬ find filename container < container.length := by
      rw [find_lt_length_iff]
      rintro ⟨hk, hmem, huuid⟩
      exact hne hk hmem huuid
    have hget : container[find filename container]? = none :=
      List.getElem?_eq_none (not_lt.mp hnot)
    unfold load
    rw [hget, hres]
    exact ⟨rfl, rfl⟩

theorem load_spec_witness :
    (load (.ok 7) "a.mdl" [⟨"b.mdl", 1, 5⟩, ⟨"a.mdl", 2, 6⟩]).1 =
        [⟨"b.mdl", 1, 5⟩, ⟨"a.mdl", 2, 6⟩].set (find "a.mdl" [⟨"b.mdl", 1, 5⟩, ⟨"a.mdl", 2, 6⟩])
          ⟨"a.mdl", 2 + 1, 6⟩ ∧
    (load (.ok 7) "c.mdl" [⟨"b.mdl", 1, 5⟩, ⟨"a.mdl", 2, 6⟩]).1 =
        [⟨"b.mdl", 1, 5⟩, ⟨"a.mdl", 2, 6⟩] ++ [⟨"c.mdl", 1, 7⟩] := by
  constructor
  · obtain ⟨it, hget, _, _, hset, _⟩ :=
      (load_spec (.ok 7) "a.mdl" [⟨"b.mdl", 1, 5⟩, ⟨"a.mdl", 2, 6⟩]).1
        ⟨⟨"a.mdl", 2, 6⟩, by decide, rfl⟩
    have hit : it = ⟨"a.mdl", 2, 6⟩ := by
      have h2 : ([⟨"b.mdl", 1, 5⟩, ⟨"a.mdl", 2, 6⟩] : List Hook)[
          find "a.mdl" [⟨"b.mdl", 1, 5⟩, ⟨"a.mdl", 2, 6⟩]]? = some ⟨"a.mdl", 2, 6⟩ := by
        decide
      rw [h2] at hget
      exact (Option.some.inj hget).symm
    rw [hset, hit]
  · exact ((load_spec (.ok 7) "c.mdl" [⟨"b.mdl", 1, 5⟩, ⟨"a.mdl", 2, 6⟩]).2
      (by decide) 7 rfl).1

/-- C14: `unloadR(hook)` for a hook whose uuid and referenceCounter agree with the entry of
the container that holds `hook.resource`.  It throws, and then it throws
"Resource hook incorrect", if and only if no hook of the container holds `hook.resource`;
a throwing call leaves the container unchanged; a call that does not throw decrements the
`referenceCounter` of the first hook holding `hook.resource` by one and removes that hook
exactly when the counter reaches 0. -/
theorem unloadR_spec (debugEnabled : Bool) (hook : Hook) (container : List Hook)
    (hagree : ∀ it, container[findResource hook.resource container]? = some it →
      it.uuid = hook.uuid ∧ it.referenceCounter = hook.referenceCounter) :
    ((∃ e, (unloadR debugEnabled hook container).2 = .error e) ↔
      ∀ it ∈ container, it.resource ≠ hook.resource) ∧
    ((∀ it ∈ container, it.resource ≠ hook.resource) →
      (unloadR debugEnabled hook container).2 =
        .error ⟨"Resource hook incorrect (\"" ++ hook.uuid ++ "\")"⟩) ∧
    (∀ e, (unloadR debugEnabled hook container).2 = .error e →
      (unloadR debugEnabled hook container).1 = container) ∧
    (∀ it, container[findResource hook.resource container]? = some it →
      it.resource = hook.resource ∧
      (unloadR debugEnabled hook container).2 = .ok () ∧
      (unloadR debugEnabled hook container).1 =
        if it.referenceCounter - 1 = 0 then
          container.eraseIdx (findResource hook.resource container)
        else
          container.set (findResource hook.resource container)
            { it with referenceCounter := it.referenceCounter - 1 }) := by
  have hfound : ∀ it, container[findResource hook.resource container]? = some it →
      unloadR debugEnabled hook container =
        if it.referenceCounter - 1 = 0 then
          (container.eraseIdx (findResource hook.resource container), .ok ())
        else
          (container.set (findResource hook.resource container)
            { it with referenceCounter := it.referenceCounter - 1 }, .ok ()) := by
    intro it hget
    obtain ⟨hu, hc⟩ := hagree it hget
    unfold unloadR
    rw [hget]
    simp only
    rw [if_neg (fun h => h.2 hu), if_neg (fun h => h.2 hc)]
  have hmissing : (∀ it ∈ container, it.resource ≠ hook.resource) →
      unloadR debugEnabled hook container =
        (container, .error ⟨"Resource hook incorrect (\"" ++ hook.uuid ++ "\")"⟩) := by
    intro hne
    have hnot : ¬ findResource hook.resource container < container.length := by
      rw [findResource_lt_length_iff]
      rintro ⟨it, hmem, hr⟩
      exact hne it hmem hr
    unfold unloadR
    rw [List.getElem?_eq_none (not_lt.mp hnot)]
  have hok : ∀ it, container[findResource hook.resource container]? = some it →
      (unloadR debugEnabled hook container).2 = .ok () := by
    intro it hget
    rw [hfound it hget]
    split_ifs <;> rfl
  refine ⟨⟨?_, fun hne => ⟨_, by rw [hmissing hne]⟩⟩, fun hne => by rw [hmissing hne], ?_, ?_⟩
  · rintro ⟨e, he⟩ it hmem hr
    have hlt := (findResource_lt_length_iff hook.resource container).mpr ⟨it, hmem, hr⟩
    rw [hok _ (List.getElem?_eq_getElem hlt)] at he
    cases he
  · intro e he
    by_cases hlt : findResource hook.resource container < container.length
    · rw [hok _ (List.getElem?_eq_getElem hlt)] at he
      cases he
    · have hne : ∀ it ∈ container, it.resource ≠ hook.resource := by
        intro it hmem hr
        exact hlt ((findResource_lt_length_iff hook.resource container).mpr ⟨it, hmem, hr⟩)
      rw [hmissing hne]
  · intro it hget
    refine ⟨resource_of_getElem?_findResource _ _ _ hget, hok it hget, ?_⟩
    rw [hfound it hget]
    split_ifs <;> rfl

theorem unloadR_spec_witness :
    (∃ e, (unloadR true ⟨"a.mdl", 1, 6⟩ [⟨"b.mdl", 1, 5⟩, ⟨"a.mdl", 1, 6⟩]).2 = .error e) ↔
      ∀ it ∈ ([⟨"b.mdl", 1, 5⟩, ⟨"a.mdl", 1, 6⟩] : List Hook), it.resource ≠ 6 :=
  (unloadR_spec true ⟨"a.mdl", 1, 6⟩ [⟨"b.mdl", 1, 5⟩, ⟨"a.mdl", 1, 6⟩]
    (by
      intro it hget
      have h2 : ([⟨"b.mdl", 1, 5⟩, ⟨"a.mdl", 1, 6⟩] : List Hook)[
          findResource 6 [⟨"b.mdl", 1, 5⟩, ⟨"a.mdl", 1, 6⟩]]? = some ⟨"a.mdl", 1, 6⟩ := by
        decide
      have hit : it = ⟨"a.mdl", 1, 6⟩ := by
        have h3 : ([⟨"b.mdl", 1, 5⟩, ⟨"a.mdl", 1, 6⟩] : List Hook)[
            findResource (Hook.resource ⟨"a.mdl", 1, 6⟩)
              [⟨"b.mdl", 1, 5⟩, ⟨"a.mdl", 1, 6⟩]]? = some it := hget
        rw [show Hook.resource ⟨"a.mdl", 1, 6⟩ = 6 from rfl, h2] at h3
        exact (Option.some.inj h3).symm
      rw [hit]
      exact ⟨rfl, rfl⟩)).1

theorem load_shape (newInstance : Except String ℕ) (filename : String) :
    ∀ container : List Hook,
      (load newInstance filename container).1 = container ∨
      (∃ front it back, container = front ++ it :: back ∧ it.uuid = filename ∧
        (load newInstance filename container).1 =
          front ++ { it with referenceCounter := it.referenceCounter + 1 } :: back) ∨
      (∃ resource, newInstance = .ok resource ∧ (∀ it ∈ container, it.uuid ≠ filename) ∧
        (load newInstance filename container).1 = container ++ [⟨filename, 1, resource⟩]) := by
  intro container
  induction container with
  | nil =>
    cases newInstance with
    | error what => exact Or.inl rfl
    | ok resource =>
      refine Or.inr (Or.inr ⟨resource, rfl, ?_, rfl⟩)
      intro it hit
      simp at hit
  | cons h rest ih =>
    by_cases hf : h.uuid = filename
    · refine Or.inr (Or.inl ⟨[], h, rest, rfl, hf, ?_⟩)
      rw [load_cons_eq newInstance filename h rest hf]
      rfl
    · rw [load_cons_ne newInstance filename h rest hf]
      rcases ih with h1 | ⟨front, it, back, hc, hu, h2⟩ | ⟨resource, hn, hne, h3⟩
      · left
        simp only
        rw [h1]
      · right
        left
        refine ⟨h :: front, it, back, by rw [hc]; rfl, hu, ?_⟩
        simp only
        rw [h2]
        rfl
      · right
        right
        refine ⟨resource, hn, ?_, ?_⟩
        · intro it hit
          rcases List.mem_cons.mp hit with rfl | hit
          · exact hf
          · exact hne it hit
        · simp only
          rw [h3]
          rfl

theorem unloadR_shape (debugEnabled : Bool) (hook : Hook) :
    ∀ container : List Hook,
      (unloadR debugEnabled hook container).1 = container ∨
      ∃ front it back, container = front ++ it :: back ∧
        ((it.referenceCounter - 1 = 0 ∧
          (unloadR debugEnabled hook container).1 = front ++ back) ∨
        (it.referenceCounter - 1 ≠ 0 ∧
          (unloadR debugEnabled hook container).1 =
            front ++ { it with referenceCounter := it.referenceCounter - 1 } :: back)) := by
  intro container
  induction container with
  | nil => exact Or.inl rfl
  | cons h rest ih =>
    by_cases hr : h.resource = hook.resource
    · rw [unloadR_cons_eq debugEnabled hook h rest hr]
      split_ifs with h1 h2 h3
      · exact Or.inl rfl
      · exact Or.inl rfl
      · exact Or.inr ⟨[], h, rest, rfl, Or.inl ⟨h3, rfl⟩⟩
      · exact Or.inr ⟨[], h, rest, rfl, Or.inr ⟨h3, rfl⟩⟩
    · rw [unloadR_cons_ne debugEnabled hook h rest hr]
      rcases ih with h1 | ⟨front, it, back, hc, h2 | h2⟩
      · left
        simp only
        rw [h1]
      · right
        refine ⟨h :: front, it, back, by rw [hc]; rfl, Or.inl ⟨h2.1, ?_⟩⟩
        simp only
        rw [h2.2]
        rfl
      · right
        refine ⟨h :: front, it, back, by rw [hc]; rfl, Or.inr ⟨h2.1, ?_⟩⟩
        simp only
        rw [h2.2]
        rfl

theorem refCountInvariant_load (newInstance : Except String ℕ) (filename : String)
    (container : List Hook) (hinv : RefCountInvariant container) :
    RefCountInvariant (load newInstance filename container).1 := by
  obtain ⟨hnd, hrc⟩ := hinv
  rcases load_shape newInstance filename container with
    h1 | ⟨front, it, back, hc, _, h2⟩ | ⟨resource, _, hne, h3⟩
  · rw [h1]
    exact ⟨hnd, hrc⟩
  · rw [h2]
    subst hc
    refine ⟨by simpa using hnd, ?_⟩
    intro x hx
    rcases List.mem_append.mp hx with hx | hx
    · exact hrc x (List.mem_append_left _ hx)
    · rcases List.mem_cons.mp hx with rfl | hx
      · have := hrc it (List.mem_append_right _ (List.mem_cons_self _ _))
        simp only
        omega
      · exact hrc x (List.mem_append_right _ (List.mem_cons_of_mem _ hx))
  · rw [h3]
    refine ⟨?_, ?_⟩
    · rw [List.map_append, List.nodup_append]
      refine ⟨hnd, by simp, ?_⟩
      intro u hu hu2
      simp only [List.map_cons, List.map_nil, List.mem_singleton] at hu2
      obtain ⟨x, hx, hxu⟩ := List.mem_map.mp hu
      exact hne x hx (hxu.trans hu2)
    · intro x hx
      rcases List.mem_append.mp hx with hx | hx
      · exact hrc x hx
      · simp only [List.mem_singleton] at hx
        rw [hx]

theorem refCountInvariant_unloadR (debugEnabled : Bool) (hook : Hook)
    (container : List Hook) (hinv : RefCountInvariant container) :
    RefCountInvariant (unloadR debugEnabled hook container).1 := by
  obtain ⟨hnd, hrc⟩ := hinv
  rcases unloadR_shape debugEnabled hook container with
    h1 | ⟨front, it, back, hc, ⟨_, h2⟩ | ⟨hne, h2⟩⟩
  · rw [h1]
    exact ⟨hnd, hrc⟩
  · rw [h2]
    subst hc
    refine ⟨?_, ?_⟩
    · refine hnd.sublist (List.Sublist.map _ ?_)
      exact List.Sublist.append_left (List.sublist_cons_self it back) front
    · intro x hx
      rcases List.mem_append.mp hx with hx | hx
      · exact hrc x (List.mem_append_left _ hx)
      · exact hrc x (List.mem_append_right _ (List.mem_cons_of_mem _ hx))
  · rw [h2]
    subst hc
    refine ⟨by simpa using hnd, ?_⟩
    intro x hx
    rcases List.mem_append.mp hx with hx | hx
    · exact hrc x (List.mem_append_left _ hx)
    · rcases List.mem_cons.mp hx with rfl | hx
      · have := hrc it (List.mem_append_right _ (List.mem_cons_self _ _))
        simp only
        omega
      · exact hrc x (List.mem_append_right _ (List.mem_cons_of_mem _ hx))

/-- C17: in every state of the container reachable from the empty container by `load`
calls (throwing or not) and `unloadR` calls, the uuids of the hooks are pairwise distinct
and every hook has `referenceCounter >= 1`. -/
theorem reachable_refCountInvariant (debugEnabled : Bool) (container : List Hook)
    (h : Reachable debugEnabled container) :
    (container.map Hook.uuid).Nodup ∧ ∀ it ∈ container, 1 ≤ it.referenceCounter := by
  have hinv : RefCountInvariant container := by
    induction h with
    | empty =>
      refine ⟨List.nodup_nil, ?_⟩
      intro it hit
      simp at hit
    | load c newInstance filename _ _ ih => exact refCountInvariant_load newInstance filename c ih
    | unloadR c hook _ ih => exact refCountInvariant_unloadR debugEnabled hook c ih
  exact hinv

theorem reachable_refCountInvariant_witness :
    (([⟨"a.mdl", 1, 7⟩, ⟨"b.mdl", 1, 8⟩] : List Hook).map Hook.uuid).Nodup ∧
    ∀ it ∈ ([⟨"a.mdl", 1, 7⟩, ⟨"b.mdl", 1, 8⟩] : List Hook), 1 ≤ it.referenceCounter :=
  reachable_refCountInvariant true [⟨"a.mdl", 1, 7⟩, ⟨"b.mdl", 1, 8⟩]
    (Reachable.unloadR [⟨"a.mdl", 2, 7⟩, ⟨"b.mdl", 1, 8⟩] ⟨"a.mdl", 2, 7⟩
      (Reachable.load [⟨"a.mdl", 2, 7⟩, ⟨"b.mdl", 1, 8⟩] (.error "no such file") "c.mdl"
        (Reachable.load [⟨"a.mdl", 1, 7⟩, ⟨"b.mdl", 1, 8⟩] (.ok 9) "a.mdl"
          (Reachable.load [⟨"a.mdl", 1, 7⟩] (.ok 8) "b.mdl"
            (Reachable.load [] (.ok 7) "a.mdl" Reachable.empty (by simp))
            (by simp))
          (by simp))
        (by simp)))

/-! ### The load/unload round trip -/

theorem loadAll_cons_eq (filename : String) (rest : List Hook) :
    ∀ (newInstances : List (Except String ℕ)) (h : Hook), h.uuid = filename →
      loadAll filename newInstances (h :: rest) =
        some ({ h with referenceCounter := h.referenceCounter + newInstances.length } :: rest) := by
  intro newInstances
  induction newInstances with
  | nil =>
    intro h _
    simp [loadAll]
  | cons o os ih =>
    intro h hf
    unfold loadAll
    rw [load_cons_eq o filename h rest hf]
    simp only
    rw [ih ⟨h.uuid, h.referenceCounter + 1, h.resource⟩ hf]
    simp only [List.length_cons, Nat.cast_add, Nat.cast_one]
    congr 3
    ring

theorem loadAll_cons_ne (filename : String) (h : Hook) (hf : h.uuid ≠ filename) :
    ∀ (newInstances : List (Except String ℕ)) (rest : List Hook),
      loadAll filename newInstances (h :: rest) =
        (loadAll filename newInstances rest).map (fun r => h :: r) := by
  intro newInstances
  induction newInstances with
  | nil =>
    intro rest
    simp [loadAll]
  | cons o os ih =>
    intro rest
    unfold loadAll
    rw [load_cons_ne o filename h rest hf]
    rcases hl : load o filename rest with ⟨c', r⟩
    cases r with
    | error e => simp
    | ok hook =>
      simp only
      exact ih c'

theorem unloadReturned_succ (debugEnabled : Bool) (filename : String) (n : ℕ)
    (container : List Hook) :
    unloadReturned debugEnabled filename (n + 1) container =
      match container[find filename container]? with
      | none => none
      | some hook =>
        match (unloadR debugEnabled hook container).2 with
        | .ok _ => unloadReturned debugEnabled filename n (unloadR debugEnabled hook container).1
        | .error _ => none := by
  rw [unloadReturned]
  cases container[find filename container]? with
  | none => rfl
  | some hook =>
    simp only
    rcases hu : unloadR debugEnabled hook container with ⟨c', r⟩
    cases r <;> rfl

theorem unloadReturned_head_keep (debugEnabled : Bool) (filename : String) (h : Hook)
    (rest : List Hook) (hf : h.uuid = filename) (hrc : 1 ≤ h.referenceCounter) :
    ∀ n : ℕ, unloadReturned debugEnabled filename n
        ({ h with referenceCounter := h.referenceCounter + n } :: rest) = some (h :: rest) := by
  intro n
  induction n with
  | zero => simp [unloadReturned]
  | succ n ih =>
    rw [unloadReturned_succ, find_cons, if_pos hf]
    simp only [List.getElem?_cons_zero]
    rw [unloadR_cons_eq debugEnabled _ _ rest rfl]
    have hne : ¬ (h.referenceCounter + ((n + 1 : ℕ) : ℤ) - 1 = 0) := by
      push_cast
      omega
    simp only [ne_eq, not_true_eq_false, and_false, if_false, hne]
    have hdec : h.referenceCounter + ((n + 1 : ℕ) : ℤ) - 1 = h.referenceCounter + (n : ℤ) := by
      push_cast
      ring
    rw [hdec]
    exact ih

theorem unloadReturned_head_erase (debugEnabled : Bool) (filename : String)
    (rest : List Hook) :
    ∀ (n : ℕ) (h : Hook), h.uuid = filename → h.referenceCounter = (n : ℤ) + 1 →
      unloadReturned debugEnabled filename (n + 1) (h :: rest) = some rest := by
  intro n
  induction n with
  | zero =>
    intro h hf hrc
    rw [unloadReturned_succ, find_cons, if_pos hf]
    simp only [List.getElem?_cons_zero]
    rw [unloadR_cons_eq debugEnabled _ _ rest rfl]
    have h0 : h.referenceCounter - 1 = 0 := by
      rw [hrc]
      simp
    simp [h0, unloadReturned]
  | succ n ih =>
    intro h hf hrc
    rw [unloadReturned_succ, find_cons, if_pos hf]
    simp only [List.getElem?_cons_zero]
    rw [unloadR_cons_eq debugEnabled _ _ rest rfl]
    have hne : ¬ (h.referenceCounter - 1 = 0) := by
      rw [hrc]
      push_cast
      omega
    simp only [ne_eq, not_true_eq_false, and_false, if_false, hne]
    refine ih _ hf ?_
    simp only
    rw [hrc]
    push_cast
    ring

theorem resource_of_mem_unloadR (debugEnabled : Bool) (hook : Hook) (container : List Hook)
    (x : Hook) (hx : x ∈ (unloadR debugEnabled hook container).1) :
    ∃ y ∈ container, y.resource = x.resource := by
  rcases unloadR_shape debugEnabled hook container with
    h1 | ⟨front, it, back, hc, ⟨_, h2⟩ | ⟨_, h2⟩⟩
  · rw [h1] at hx
    exact ⟨x, hx, rfl⟩
  · rw [h2] at hx
    subst hc
    rcases List.mem_append.mp hx with hx | hx
    · exact ⟨x, List.mem_append_left _ hx, rfl⟩
    · exact ⟨x, List.mem_append_right _ (List.mem_cons_of_mem _ hx), rfl⟩
  · rw [h2] at hx
    subst hc
    rcases List.mem_append.mp hx with hx | hx
    · exact ⟨x, List.mem_append_left _ hx, rfl⟩
    · rcases List.mem_cons.mp hx with rfl | hx
      · exact ⟨it, List.mem_append_right _ (List.mem_cons_self _ _), rfl⟩
      · exact ⟨x, List.mem_append_right _ (List.mem_cons_of_mem _ hx), rfl⟩

theorem resource_of_mem_load (newInstance : Except String ℕ) (filename : String)
    (container : List Hook) (x : Hook) (hx : x ∈ (load newInstance filename container).1) :
    (∃ y ∈ container, y.resource = x.resource) ∨ newInstance = .ok x.resource := by
  rcases load_shape newInstance filename container with
    h1 | ⟨front, it, back, hc, _, h2⟩ | ⟨resource, hn, _, h3⟩
  · rw [h1] at hx
    exact Or.inl ⟨x, hx, rfl⟩
  · rw [h2] at hx
    subst hc
    left
    rcases List.mem_append.mp hx with hx | hx
    · exact ⟨x, List.mem_append_left _ hx, rfl⟩
    · rcases List.mem_cons.mp hx with rfl | hx
      · exact ⟨it, List.mem_append_right _ (List.mem_cons_self _ _), rfl⟩
      · exact ⟨x, List.mem_append_right _ (List.mem_cons_of_mem _ hx), rfl⟩
  · rw [h3] at hx
    rcases List.mem_append.mp hx with hx | hx
    · exact Or.inl ⟨x, hx, rfl⟩
    · simp only [List.mem_singleton] at hx
      right
      rw [hx, hn]

theorem resource_of_mem_loadAll (filename : String) :
    ∀ (newInstances : List (Except String ℕ)) (container container' : List Hook),
      loadAll filename newInstances container = some container' →
      ∀ x ∈ container', (∃ y ∈ container, y.resource = x.resource) ∨
        .ok x.resource ∈ newInstances := by
  intro newInstances
  induction newInstances with
  | nil =>
    intro container container' h x hx
    simp only [loadAll, Option.some.injEq] at h
    subst h
    exact Or.inl ⟨x, hx, rfl⟩
  | cons o os ih =>
    intro container container' h x hx
    unfold loadAll at h
    rcases hl : load o filename container with ⟨c1, r⟩
    rw [hl] at h
    cases r with
    | error e => simp at h
    | ok hook =>
      simp only at h
      rcases ih c1 container' h x hx with ⟨y, hy, hyr⟩ | hmem
      · have hy2 : y ∈ (load o filename container).1 := by rw [hl]; exact hy
        rcases resource_of_mem_load o filename container y hy2 with ⟨z, hz, hzr⟩ | ho
        · exact Or.inl ⟨z, hz, hzr.trans hyr⟩
        · right
          rw [← hyr, ← ho]
          exact List.mem_cons_self _ _
      · exact Or.inr (List.mem_cons_of_mem _ hmem)

theorem unloadReturned_cons_ne (debugEnabled : Bool) (filename : String) (h : Hook)
    (hf : h.uuid ≠ filename) :
    ∀ (n : ℕ) (rest : List Hook), (∀ it ∈ rest, it.resource ≠ h.resource) →
      unloadReturned debugEnabled filename n (h :: rest) =
        (unloadReturned debugEnabled filename n rest).map (fun r => h :: r) := by
  intro n
  induction n with
  | zero =>
    intro rest _
    simp [unloadReturned]
  | succ n ih =>
    intro rest hres
    rw [unloadReturned_succ, unloadReturned_succ, find_cons, if_neg hf,
      List.getElem?_cons_succ]
    cases hget : rest[find filename rest]? with
    | none => rfl
    | some hook =>
      have hmem : hook ∈ rest := List.getElem?_mem hget
      have hne : h.resource ≠ hook.resource := fun e => hres hook hmem e.symm
      simp only
      rw [unloadR_cons_ne debugEnabled hook h rest hne]
      simp only
      cases hr : (unloadR debugEnabled hook rest).2 with
      | error e => rfl
      | ok u =>
        simp only
        refine ih _ ?_
        intro it hit
        obtain ⟨y, hy, hyr⟩ := resource_of_mem_unloadR debugEnabled hook rest it hit
        rw [← hyr]
        exact hres y hy

/-- C18: from every container state with the reference-count invariant, in which distinct
hooks hold distinct resources and a newly loaded resource is not one already held, `n`
successful `load(filename)` calls followed by `n` calls `unloadR` on the returned hook give
back the initial container: the same hooks, in the same order, with the same counters. -/
theorem load_unloadR_roundtrip (debugEnabled : Bool) (filename : String)
    (newInstances : List (Except String ℕ)) :
    ∀ (container container' : List Hook),
      ((container.map Hook.uuid).Nodup ∧ ∀ it ∈ container, 1 ≤ it.referenceCounter) →
      (container.map Hook.resource).Nodup →
      (∀ resource, .ok resource ∈ newInstances → ∀ it ∈ container, it.resource ≠ resource) →
      loadAll filename newInstances container = some container' →
      unloadReturned debugEnabled filename newInstances.length container' = some container := by
  intro container
  induction container with
  | nil =>
    intro container' _ _ _ hload
    cases newInstances with
    | nil =>
      simp only [loadAll, Option.some.injEq] at hload
      subst hload
      rfl
    | cons o os =>
      cases o with
      | error what => simp [loadAll, load, allocAndLoadRsrc, find] at hload
      | ok resource =>
        have h1 : load (.ok resource) filename [] =
            ([⟨filename, 1, resource⟩], .ok ⟨filename, 1, resource⟩) := rfl
        unfold loadAll at hload
        rw [h1] at hload
        simp only at hload
        rw [loadAll_cons_eq filename [] os ⟨filename, 1, resource⟩ rfl] at hload
        simp only [Option.some.injEq] at hload
        subst hload
        exact unloadReturned_head_erase debugEnabled filename [] os.length _ rfl
          (by simp only; ring)
  | cons h rest ih =>
    intro container' hinv hres hfresh hload
    by_cases hf : h.uuid = filename
    · rw [loadAll_cons_eq filename rest newInstances h hf] at hload
      simp only [Option.some.injEq] at hload
      subst hload
      exact unloadReturned_head_keep debugEnabled filename h rest hf
        (hinv.2 h (List.mem_cons_self _ _)) newInstances.length
    · rw [loadAll_cons_ne filename h hf newInstances rest] at hload
      obtain ⟨r', hr', hc'⟩ := Option.map_eq_some'.mp hload
      subst hc'
      have hnd : (h.uuid :: rest.map Hook.uuid).Nodup := hinv.1
      have hresnd : (h.resource :: rest.map Hook.resource).Nodup := hres
      have hrest := ih r'
        ⟨(List.nodup_cons.mp hnd).2, fun it hit => hinv.2 it (List.mem_cons_of_mem _ hit)⟩
        (List.nodup_cons.mp hresnd).2
        (fun resource hmem it hit => hfresh resource hmem it (List.mem_cons_of_mem _ hit))
        hr'
      rw [unloadReturned_cons_ne debugEnabled filename h hf newInstances.length r' ?_, hrest]
      · rfl
      · intro it hit
        rcases resource_of_mem_loadAll filename newInstances rest r' hr' it hit with
          ⟨y, hy, hyr⟩ | hmem
        · rw [← hyr]
          intro e
          exact (List.nodup_cons.mp hresnd).1 (e ▸ List.mem_map_of_mem Hook.resource hy)
        · exact fun e => hfresh it.resource hmem h (List.mem_cons_self _ _) e.symm

theorem reachable_resources_nodup (debugEnabled : Bool) (container : List Hook)
    (h : Reachable debugEnabled container) : (container.map Hook.resource).Nodup := by
  induction h with
  | empty => exact List.nodup_nil
  | load c newInstance filename _ hfresh ih =>
    rcases load_shape newInstance filename c with
      h1 | ⟨front, it, back, hc, _, h2⟩ | ⟨resource, hn, _, h3⟩
    · rw [h1]
      exact ih
    · rw [h2]
      subst hc
      simpa using ih
    · rw [h3, List.map_append, List.nodup_append]
      refine ⟨ih, by simp, ?_⟩
      intro r hr hr2
      simp only [List.map_cons, List.map_nil, List.mem_singleton] at hr2
      obtain ⟨x, hx, hxr⟩ := List.mem_map.mp hr
      exact hfresh resource hn x hx (hxr.trans hr2)
  | unloadR c hook _ ih =>
    rcases unloadR_shape debugEnabled hook c with
      h1 | ⟨front, it, back, hc, ⟨_, h2⟩ | ⟨_, h2⟩⟩
    · rw [h1]
      exact ih
    · rw [h2]
      subst hc
      refine ih.sublist (List.Sublist.map _ ?_)
      exact List.Sublist.append_left (List.sublist_cons_self it back) front
    · rw [h2]
      subst hc
      simpa using ih

theorem load_unloadR_roundtrip_witness :
    unloadReturned true "a.mdl" ([.ok 7, .ok 9] : List (Except String ℕ)).length
      [⟨"b.mdl", 1, 5⟩, ⟨"a.mdl", 2, 7⟩] = some [⟨"b.mdl", 1, 5⟩] :=
  load_unloadR_roundtrip true "a.mdl" [.ok 7, .ok 9] [⟨"b.mdl", 1, 5⟩]
    [⟨"b.mdl", 1, 5⟩, ⟨"a.mdl", 2, 7⟩]
    ⟨by decide, by decide⟩ (by decide) (by simp) rfl

end ResourceManager

/-! ## File -/

namespace File

/-- C15 fails on the code at `flags_ = OF_READ | OF_BINARY | E_LITTLE_ENDIAN | E_BIG_ENDIAN`
(flag constants the eight distinct single bits of a `U8`): every assertion of `open`
accepts it, because `(flags_ & E_BIG_ENDIAN) != (flags_ & E_LITTLE_ENDIAN)` compares the
two masked values, which differ when both flags are set; the open succeeds with both
endianness flags set; and `readU32`, whose assertion accepts the flags in the same way,
takes the bytes `01 00 00 00` as big endian on a little endian machine. -/
theorem open_accepts_both_endianness_flags :
    File.«open» ⟨1, 2, 4, 8, 16, 32, 64, 128⟩ true (some 1) ⟨none, 0⟩ (some "mesh.bin")
        (1 ||| 8 ||| 16 ||| 32) = .ok ⟨some 1, 121⟩ ∧
    121 &&& 16 ≠ 0 ∧ 121 &&& 32 ≠ 0 ∧
    File.readU32 ⟨1, 2, 4, 8, 16, 32, 64, 128⟩ true ⟨some 1, 121⟩ (some (1, 0, 0, 0))
      = .ok 16777216 := by
  refine ⟨rfl, by decide, by decide, rfl⟩

end File

/-! ## Binary32 rounding -/

namespace Binary32

theorem two_zpow_pos (e : ℤ) : (0 : ℝ) < (2 : ℝ) ^ e := zpow_pos (by norm_num) e

theorem ulp_pos (x : ℝ) : 0 < ulp x := two_zpow_pos _

theorem exponent_of_small {x : ℝ} (h : |x| < (2 : ℝ) ^ (-126 : ℤ)) : exponent x = -126 := by
  unfold exponent
  rw [if_pos h]

theorem exponent_of_not_small {x : ℝ} (h : (2 : ℝ) ^ (-126 : ℤ) ≤ |x|) :
    exponent x = Int.log 2 |x| := by
  unfold exponent
  rw [if_neg (not_lt.mpr h)]

theorem exponent_ge (x : ℝ) : -126 ≤ exponent x := by
  by_cases h : |x| < (2 : ℝ) ^ (-126 : ℤ)
  · rw [exponent_of_small h]
  · have h' := not_lt.mp h
    have hpos : 0 < |x| := lt_of_lt_of_le (two_zpow_pos _) h'
    rw [exponent_of_not_small h', ← Int.zpow_le_iff_le_log (by norm_num) hpos, Nat.cast_ofNat]
    exact h'

theorem abs_lt_zpow_exponent (x : ℝ) : |x| < (2 : ℝ) ^ (exponent x + 1) := by
  by_cases h : |x| < (2 : ℝ) ^ (-126 : ℤ)
  · rw [exponent_of_small h]
    exact lt_of_lt_of_le h (zpow_le_zpow_right₀ (by norm_num) (by norm_num))
  · rw [exponent_of_not_small (not_lt.mp h)]
    have h1 := Int.lt_zpow_succ_log_self (b := 2) (by norm_num) |x|
    rwa [Nat.cast_ofNat] at h1

theorem zpow_exponent_le {x : ℝ} (h : (2 : ℝ) ^ (-126 : ℤ) ≤ |x|) :
    (2 : ℝ) ^ exponent x ≤ |x| := by
  have hpos : 0 < |x| := lt_of_lt_of_le (two_zpow_pos _) h
  rw [exponent_of_not_small h]
  have := Int.zpow_log_le_self (b := 2) (r := |x|) (by norm_num) hpos
  rwa [Nat.cast_ofNat] at this

theorem exponent_eq {x : ℝ} {E : ℤ} (hE : -126 ≤ E) (h1 : (2 : ℝ) ^ E ≤ |x|)
    (h2 : |x| < (2 : ℝ) ^ (E + 1)) : exponent x = E := by
  have hpos : 0 < |x| := lt_of_lt_of_le (two_zpow_pos E) h1
  have hns : (2 : ℝ) ^ (-126 : ℤ) ≤ |x| :=
    le_trans (zpow_le_zpow_right₀ (by norm_num) hE) h1
  rw [exponent_of_not_small hns]
  apply le_antisymm
  · have : Int.log 2 |x| < E + 1 := by
      rw [← Int.lt_zpow_iff_log_lt (by norm_num) hpos, Nat.cast_ofNat]
      exact h2
    omega
  · rw [← Int.zpow_le_iff_le_log (by norm_num) hpos, Nat.cast_ofNat]
    exact h1

theorem exponent_mono {x y : ℝ} (hx : 0 ≤ x) (hxy : x ≤ y) : exponent x ≤ exponent y := by
  by_cases h : |x| < (2 : ℝ) ^ (-126 : ℤ)
  · rw [exponent_of_small h]
    exact exponent_ge y
  · have hxs := not_lt.mp h
    have hx0 : 0 < x := by
      rcases hx.eq_or_lt with h0 | h0
      · rw [← h0, abs_zero] at hxs
        exact absurd hxs (not_le.mpr (two_zpow_pos _))
      · exact h0
    have hy0 : 0 < y := lt_of_lt_of_le hx0 hxy
    have hys : (2 : ℝ) ^ (-126 : ℤ) ≤ |y| := by
      rw [abs_of_pos hy0]
      rw [abs_of_pos hx0] at hxs
      exact le_trans hxs hxy
    rw [exponent_of_not_small hxs, exponent_of_not_small hys, abs_of_pos hx0, abs_of_pos hy0]
    exact Int.log_mono_right hx0 hxy

/-! ### Rounding to the nearest integer -/

theorem roundTiesToEven_intCast (n : ℤ) : roundTiesToEven (n : ℝ) = n := by
  unfold roundTiesToEven
  rw [Int.fract_intCast, Int.floor_intCast, if_pos (by norm_num)]

theorem floor_le_roundTiesToEven (y : ℝ) : ⌊y⌋ ≤ roundTiesToEven y := by
  unfold roundTiesToEven
  split_ifs <;> omega

theorem roundTiesToEven_le_floor_add_one (y : ℝ) : roundTiesToEven y ≤ ⌊y⌋ + 1 := by
  unfold roundTiesToEven
  split_ifs <;> omega

theorem roundTiesToEven_nonneg {y : ℝ} (hy : 0 ≤ y) : 0 ≤ roundTiesToEven y :=
  le_trans (Int.floor_nonneg.mpr hy) (floor_le_roundTiesToEven y)

theorem roundTiesToEven_mono {a b : ℝ} (hab : a ≤ b) :
    roundTiesToEven a ≤ roundTiesToEven b := by
  have hfl : ⌊a⌋ ≤ ⌊b⌋ := Int.floor_le_floor hab
  rcases hfl.eq_or_lt with heq | hlt
  · have hfr : Int.fract a ≤ Int.fract b := by
      have ha := Int.floor_add_fract a
      have hb := Int.floor_add_fract b
      have hc : (⌊a⌋ : ℝ) = (⌊b⌋ : ℝ) := by rw [heq]
      linarith
    unfold roundTiesToEven
    rw [heq]
    split_ifs <;> first | omega | (exfalso; linarith)
  · calc roundTiesToEven a ≤ ⌊a⌋ + 1 := roundTiesToEven_le_floor_add_one a
      _ ≤ ⌊b⌋ := hlt
      _ ≤ roundTiesToEven b := floor_le_roundTiesToEven b

theorem roundTiesToEven_of_lt_half {y : ℝ} {n : ℤ} (h1 : (n : ℝ) ≤ y)
    (h2 : y < (n : ℝ) + 1 / 2) : roundTiesToEven y = n := by
  have hfl : ⌊y⌋ = n := by
    rw [Int.floor_eq_iff]
    exact ⟨h1, by linarith⟩
  have hfr : Int.fract y < 1 / 2 := by
    have := Int.floor_add_fract y
    rw [hfl] at this
    linarith
  unfold roundTiesToEven
  rw [if_pos hfr, hfl]

/-! ### Rounding to binary32 -/

theorem roundReal_nonneg {x : ℝ} (hx : 0 ≤ x) : 0 ≤ roundReal x := by
  unfold roundReal
  have h : 0 ≤ roundTiesToEven (x / ulp x) :=
    roundTiesToEven_nonneg (div_nonneg hx (ulp_pos x).le)
  exact mul_nonneg (by exact_mod_cast h) (ulp_pos x).le

theorem roundReal_zero : roundReal 0 = 0 := by
  unfold roundReal
  rw [zero_div]
  have := roundTiesToEven_intCast 0
  simp only [Int.cast_zero] at this
  rw [this]
  simp

theorem roundReal_mono {x y : ℝ} (hx : 0 ≤ x) (hxy : x ≤ y) : roundReal x ≤ roundReal y := by
  have hy : 0 ≤ y := le_trans hx hxy
  have hexp := exponent_mono hx hxy
  rcases hexp.eq_or_lt with heq | hlt
  · unfold roundReal ulp
    rw [heq]
    have hu := two_zpow_pos (exponent y - 23)
    have h1 : roundTiesToEven (x / (2 : ℝ) ^ (exponent y - 23))
        ≤ roundTiesToEven (y / (2 : ℝ) ^ (exponent y - 23)) :=
      roundTiesToEven_mono (div_le_div_of_nonneg_right hxy hu.le)
    exact mul_le_mul_of_nonneg_right (by exact_mod_cast h1) hu.le
  · -- different binades: `roundReal x ≤ 2 ^ (exponent x + 1) ≤ 2 ^ exponent y ≤ roundReal y`
    have hux := two_zpow_pos (exponent x - 23)
    have huy := two_zpow_pos (exponent y - 23)
    have hx1 : roundReal x ≤ (2 : ℝ) ^ (exponent x + 1) := by
      have hlt2 := abs_lt_zpow_exponent x
      rw [abs_of_nonneg hx] at hlt2
      have hq : x / (2 : ℝ) ^ (exponent x - 23) ≤ (((2 : ℤ) ^ 24 : ℤ) : ℝ) := by
        rw [div_le_iff₀ hux]
        have e : ((((2 : ℤ) ^ 24 : ℤ) : ℝ)) * (2 : ℝ) ^ (exponent x - 23)
            = (2 : ℝ) ^ (exponent x + 1) := by
          have : ((((2 : ℤ) ^ 24 : ℤ) : ℝ)) = (2 : ℝ) ^ (24 : ℤ) := by norm_num
          rw [this, ← zpow_add₀ (by norm_num : (2 : ℝ) ≠ 0)]
          congr 1
          ring
        rw [e]
        exact hlt2.le
      have hr := roundTiesToEven_mono hq
      rw [roundTiesToEven_intCast] at hr
      have hr2 : ((roundTiesToEven (x / (2 : ℝ) ^ (exponent x - 23)) : ℤ) : ℝ)
          ≤ (2 : ℝ) ^ (24 : ℤ) := by
        have : ((roundTiesToEven (x / (2 : ℝ) ^ (exponent x - 23)) : ℤ) : ℝ)
            ≤ (((2 : ℤ) ^ 24 : ℤ) : ℝ) := by exact_mod_cast hr
        refine le_trans this (le_of_eq ?_)
        norm_num
      unfold roundReal ulp
      calc ((roundTiesToEven (x / (2 : ℝ) ^ (exponent x - 23)) : ℤ) : ℝ)
            * (2 : ℝ) ^ (exponent x - 23)
          ≤ (2 : ℝ) ^ (24 : ℤ) * (2 : ℝ) ^ (exponent x - 23) :=
            mul_le_mul_of_nonneg_right hr2 hux.le
        _ = (2 : ℝ) ^ (exponent x + 1) := by
            rw [← zpow_add₀ (by norm_num : (2 : ℝ) ≠ 0)]
            congr 1
            ring
    have hy1 : (2 : ℝ) ^ exponent y ≤ roundReal y := by
      have hgt : -126 < exponent y := lt_of_le_of_lt (exponent_ge x) hlt
      have hys : (2 : ℝ) ^ (-126 : ℤ) ≤ |y| := by
        by_contra hc
        rw [exponent_of_small (not_le.mp hc)] at hgt
        exact absurd hgt (lt_irrefl _)
      have hle := zpow_exponent_le hys
      rw [abs_of_nonneg hy] at hle
      have hq : (((2 : ℤ) ^ 23 : ℤ) : ℝ) ≤ y / (2 : ℝ) ^ (exponent y - 23) := by
        rw [le_div_iff₀ huy]
        have e : ((((2 : ℤ) ^ 23 : ℤ) : ℝ)) * (2 : ℝ) ^ (exponent y - 23)
            = (2 : ℝ) ^ (exponent y) := by
          have : ((((2 : ℤ) ^ 23 : ℤ) : ℝ)) = (2 : ℝ) ^ (23 : ℤ) := by norm_num
          rw [this, ← zpow_add₀ (by norm_num : (2 : ℝ) ≠ 0)]
          congr 1
          ring
        rw [e]
        exact hle
      have hr := roundTiesToEven_mono hq
      rw [roundTiesToEven_intCast] at hr
      have hr2 : (2 : ℝ) ^ (23 : ℤ)
          ≤ ((roundTiesToEven (y / (2 : ℝ) ^ (exponent y - 23)) : ℤ) : ℝ) := by
        have : (((2 : ℤ) ^ 23 : ℤ) : ℝ)
            ≤ ((roundTiesToEven (y / (2 : ℝ) ^ (exponent y - 23)) : ℤ) : ℝ) := by
          exact_mod_cast hr
        refine le_trans (le_of_eq ?_) this
        norm_num
      unfold roundReal ulp
      calc (2 : ℝ) ^ exponent y = (2 : ℝ) ^ (23 : ℤ) * (2 : ℝ) ^ (exponent y - 23) := by
            rw [← zpow_add₀ (by norm_num : (2 : ℝ) ≠ 0)]
            congr 1
            ring
        _ ≤ ((roundTiesToEven (y / (2 : ℝ) ^ (exponent y - 23)) : ℤ) : ℝ)
            * (2 : ℝ) ^ (exponent y - 23) := mul_le_mul_of_nonneg_right hr2 huy.le
    have hmid : (2 : ℝ) ^ (exponent x + 1) ≤ (2 : ℝ) ^ exponent y :=
      zpow_le_zpow_right₀ (by norm_num) (by omega)
    exact le_trans hx1 (le_trans hmid hy1)

end Binary32

namespace Binary32

theorem roundTiesToEven_div_ulp_le {x : ℝ} (hx : 0 ≤ x) :
    roundTiesToEven (x / ulp x) ≤ 2 ^ 24 := by
  have hux := ulp_pos x
  have hlt2 := abs_lt_zpow_exponent x
  rw [abs_of_nonneg hx] at hlt2
  have hq : x / ulp x ≤ (((2 : ℤ) ^ 24 : ℤ) : ℝ) := by
    rw [div_le_iff₀ hux]
    have e : ((((2 : ℤ) ^ 24 : ℤ) : ℝ)) * ulp x = (2 : ℝ) ^ (exponent x + 1) := by
      have : ((((2 : ℤ) ^ 24 : ℤ) : ℝ)) = (2 : ℝ) ^ (24 : ℤ) := by norm_num
      unfold ulp
      rw [this, ← zpow_add₀ (by norm_num : (2 : ℝ) ≠ 0)]
      congr 1
      ring
    rw [e]
    exact hlt2.le
  have hr := roundTiesToEven_mono hq
  rwa [roundTiesToEven_intCast] at hr

theorem roundReal_intCast_mul_zpow (m e : ℤ) (hm : |m| < 2 ^ 24) (he : -149 ≤ e) :
    roundReal ((m : ℝ) * (2 : ℝ) ^ e) = (m : ℝ) * (2 : ℝ) ^ e := by
  by_cases hm0 : m = 0
  · subst hm0
    simp [roundReal_zero]
  have hpe := two_zpow_pos e
  have habs : |(m : ℝ) * (2 : ℝ) ^ e| = (|m| : ℤ) * (2 : ℝ) ^ e := by
    rw [abs_mul, abs_of_pos hpe, Int.cast_abs]
  have hE : exponent ((m : ℝ) * (2 : ℝ) ^ e) ≤ e + 23 := by
    by_cases hs : |(m : ℝ) * (2 : ℝ) ^ e| < (2 : ℝ) ^ (-126 : ℤ)
    · rw [exponent_of_small hs]
      omega
    · have hns := not_lt.mp hs
      have hpos : 0 < |(m : ℝ) * (2 : ℝ) ^ e| := lt_of_lt_of_le (two_zpow_pos _) hns
      rw [exponent_of_not_small hns]
      have hlt : Int.log 2 |(m : ℝ) * (2 : ℝ) ^ e| < e + 24 := by
        rw [← Int.lt_zpow_iff_log_lt (by norm_num) hpos, Nat.cast_ofNat, habs]
        have h1 : ((|m| : ℤ) : ℝ) < (2 : ℝ) ^ (24 : ℤ) := by
          have : ((|m| : ℤ) : ℝ) < (((2 : ℤ) ^ 24 : ℤ) : ℝ) := by exact_mod_cast hm
          refine lt_of_lt_of_le this (le_of_eq ?_)
          norm_num
        calc ((|m| : ℤ) : ℝ) * (2 : ℝ) ^ e < (2 : ℝ) ^ (24 : ℤ) * (2 : ℝ) ^ e :=
              mul_lt_mul_of_pos_right h1 hpe
          _ = (2 : ℝ) ^ (e + 24) := by
              rw [← zpow_add₀ (by norm_num : (2 : ℝ) ≠ 0)]
              congr 1
              ring
      omega
  obtain ⟨k, hk⟩ : ∃ k : ℕ, (k : ℤ) = e - (exponent ((m : ℝ) * (2 : ℝ) ^ e) - 23) :=
    ⟨(e - (exponent ((m : ℝ) * (2 : ℝ) ^ e) - 23)).toNat, by
      rw [Int.toNat_of_nonneg]
      omega⟩
  have hu := ulp_pos ((m : ℝ) * (2 : ℝ) ^ e)
  have hsplit : (2 : ℝ) ^ e = (2 : ℝ) ^ k * ulp ((m : ℝ) * (2 : ℝ) ^ e) := by
    unfold ulp
    rw [← zpow_natCast, ← zpow_add₀ (by norm_num : (2 : ℝ) ≠ 0), hk]
    congr 1
    ring
  have hq : (m : ℝ) * (2 : ℝ) ^ e / ulp ((m : ℝ) * (2 : ℝ) ^ e) = ((m * 2 ^ k : ℤ) : ℝ) := by
    rw [div_eq_iff hu.ne']
    push_cast
    rw [mul_assoc, ← hsplit]
  unfold roundReal
  rw [hq, roundTiesToEven_intCast]
  push_cast
  rw [mul_assoc, ← hsplit]

theorem roundReal_two_zpow (e : ℤ) (he : -149 ≤ e) : roundReal ((2 : ℝ) ^ e) = (2 : ℝ) ^ e := by
  have h := roundReal_intCast_mul_zpow 1 e (by norm_num) he
  simpa using h

theorem roundReal_natCast (n : ℕ) (hn : n ≤ 2 ^ 24) : roundReal (n : ℝ) = (n : ℝ) := by
  rcases Nat.lt_or_ge n (2 ^ 24) with h | h
  · have h1 := roundReal_intCast_mul_zpow (n : ℤ) 0 (by rw [abs_of_nonneg (by positivity)]; exact_mod_cast h)
      (by norm_num)
    simpa using h1
  · have hn2 : n = 2 ^ 24 := le_antisymm hn h
    have h1 := roundReal_two_zpow 24 (by norm_num)
    rw [hn2]
    have e : (((2 ^ 24 : ℕ)) : ℝ) = (2 : ℝ) ^ (24 : ℤ) := by norm_num
    rw [e]
    exact h1

theorem roundReal_idem {x : ℝ} (hx : 0 ≤ x) : roundReal (roundReal x) = roundReal x := by
  have hN0 : 0 ≤ roundTiesToEven (x / ulp x) :=
    roundTiesToEven_nonneg (div_nonneg hx (ulp_pos x).le)
  have hN1 := roundTiesToEven_div_ulp_le hx
  have hge := exponent_ge x
  rcases hN1.eq_or_lt with heq | hlt
  · have e : roundReal x = (2 : ℝ) ^ (exponent x + 1) := by
      unfold roundReal
      rw [heq]
      unfold ulp
      have : ((((2 : ℤ) ^ 24 : ℤ) : ℝ)) = (2 : ℝ) ^ (24 : ℤ) := by norm_num
      rw [this, ← zpow_add₀ (by norm_num : (2 : ℝ) ≠ 0)]
      congr 1
      ring
    rw [e]
    exact roundReal_two_zpow _ (by omega)
  · have e : roundReal x =
        ((roundTiesToEven (x / ulp x) : ℤ) : ℝ) * (2 : ℝ) ^ (exponent x - 23) := rfl
    rw [e]
    exact roundReal_intCast_mul_zpow _ _ (by rw [abs_of_nonneg hN0]; exact hlt) (by omega)

theorem roundF32_eq_some_iff {x r : ℝ} :
    roundF32 x = some r ↔ roundReal x = r ∧ |r| < 2 ^ 128 := by
  unfold roundF32
  constructor
  · intro h
    split at h
    · rename_i hlt
      have hr : roundReal x = r := by simpa using h
      exact ⟨hr, by rw [← hr]; exact hlt⟩
    · exact absurd h (by simp)
  · rintro ⟨hr, hlt⟩
    rw [hr, if_pos hlt]

theorem roundF32_of_le {x y : ℝ} (hx : 0 ≤ x) (hxy : x ≤ y) (hy : roundReal y < 2 ^ 128) :
    roundF32 x = some (roundReal x) := by
  rw [roundF32_eq_some_iff]
  refine ⟨rfl, ?_⟩
  rw [abs_of_nonneg (roundReal_nonneg hx)]
  exact lt_of_le_of_lt (roundReal_mono hx hxy) hy

theorem roundF32_of_le_zpow {x : ℝ} (hx : 0 ≤ x) (h : x ≤ (2 : ℝ) ^ (127 : ℤ)) :
    roundF32 x = some (roundReal x) := by
  refine roundF32_of_le hx h ?_
  rw [roundReal_two_zpow 127 (by norm_num)]
  norm_num

theorem roundF32_natCast (n : ℕ) (hn : n ≤ 2 ^ 24) : roundF32 (n : ℝ) = some (n : ℝ) := by
  rw [roundF32_eq_some_iff]
  refine ⟨roundReal_natCast n hn, ?_⟩
  rw [abs_of_nonneg (Nat.cast_nonneg n)]
  have : (n : ℝ) ≤ ((2 ^ 24 : ℕ) : ℝ) := by exact_mod_cast hn
  refine lt_of_le_of_lt this ?_
  norm_num

theorem isF32_iff {x : ℝ} : IsF32 x ↔ roundReal x = x ∧ |x| < 2 ^ 128 := by
  unfold IsF32
  exact roundF32_eq_some_iff

theorem lt_of_isF32_of_lt_roundReal {f c : ℝ} (hf : roundReal f = f) (hc : 0 ≤ c)
    (h : f < roundReal c) : f < c := by
  by_contra hcon
  have hle : c ≤ f := not_lt.mp hcon
  have := roundReal_mono hc hle
  rw [hf] at this
  exact absurd h (not_lt.mpr this)

end Binary32

namespace Binary32

theorem zpow_split (E : ℤ) :
    (2 : ℝ) ^ (E - 23) = 2 * (2 : ℝ) ^ (E - 24) ∧
    (2 : ℝ) ^ E = 16777216 * (2 : ℝ) ^ (E - 24) ∧
    (2 : ℝ) ^ (E + 1) = 33554432 * (2 : ℝ) ^ (E - 24) := by
  have h2 : (2 : ℝ) ≠ 0 := by norm_num
  refine ⟨?_, ?_, ?_⟩
  · have : E - 23 = 1 + (E - 24) := by ring
    rw [this, zpow_add₀ h2]
    norm_num
  · have : E = 24 + (E - 24) := by ring
    nth_rewrite 1 [this]
    rw [zpow_add₀ h2]
    norm_num
  · have : E + 1 = 25 + (E - 24) := by ring
    rw [this, zpow_add₀ h2]
    norm_num

theorem le_pred_one {u : ℝ} (hu1 : u < 1) (hu : roundReal u = u) :
    u ≤ 1 - 1 / 16777216 := by
  by_cases h : u < 1 / 2
  · linarith
  · have h' := not_lt.mp h
    have hupos : 0 < u := by linarith
    have hexp : exponent u = -1 := by
      apply exponent_eq (by norm_num)
      · rw [abs_of_pos hupos]
        norm_num
        linarith
      · rw [abs_of_pos hupos]
        norm_num
        exact hu1
    have hulp : ulp u = 1 / 16777216 := by
      unfold ulp
      rw [hexp]
      norm_num
    unfold roundReal at hu
    rw [hulp] at hu
    have hMlt : roundTiesToEven (u / (1 / 16777216)) < 16777216 := by
      have : ((roundTiesToEven (u / (1 / 16777216)) : ℤ) : ℝ) < ((16777216 : ℤ) : ℝ) := by
        push_cast
        linarith
      exact_mod_cast this
    have hMle : ((roundTiesToEven (u / (1 / 16777216)) : ℤ) : ℝ) ≤ ((16777215 : ℤ) : ℝ) := by
      have : roundTiesToEven (u / (1 / 16777216)) ≤ 16777215 := by omega
      exact_mod_cast this
    push_cast at hMle
    linarith

theorem roundReal_mul_lt {u C : ℝ} (hu0 : 0 ≤ u) (hu1 : u < 1) (hu : roundReal u = u)
    (hC : roundReal C = C) (hC1 : 1 ≤ C) : roundReal (u * C) < C := by
  have hCpos : 0 < C := by linarith
  have hule := le_pred_one hu1 hu
  have hP0 : 0 ≤ u * C := mul_nonneg hu0 hCpos.le
  have hPle : u * C ≤ C - C / 16777216 := by
    have := mul_le_mul_of_nonneg_right hule hCpos.le
    linarith
  have hsmall : (2 : ℝ) ^ (-126 : ℤ) ≤ |C| := by
    rw [abs_of_pos hCpos]
    refine le_trans ?_ hC1
    exact zpow_le_one_of_nonpos₀ (by norm_num) (by norm_num)
  have h2E := zpow_exponent_le hsmall
  have hlt := abs_lt_zpow_exponent C
  rw [abs_of_pos hCpos] at h2E hlt
  have hE0 : 0 ≤ exponent C := by
    by_contra hneg
    have : (2 : ℝ) ^ (exponent C + 1) ≤ 1 :=
      zpow_le_one_of_nonpos₀ (by norm_num) (by omega)
    linarith
  obtain ⟨h23, h24, h25⟩ := zpow_split (exponent C)
  have ha := two_zpow_pos (exponent C - 24)
  have hMeq : ((roundTiesToEven (C / ulp C) : ℤ) : ℝ) * (2 : ℝ) ^ (exponent C - 23) = C := hC
  rw [h23] at hMeq
  have h2a : (0 : ℝ) < 2 * (2 : ℝ) ^ (exponent C - 24) := by linarith
  by_cases hpow : C = (2 : ℝ) ^ exponent C
  · -- `C` is a power of two: the largest binary32 number below it bounds the product
    have hQ := roundReal_intCast_mul_zpow 16777215 (exponent C - 24) (by norm_num) (by omega)
    push_cast at hQ
    have hle : u * C ≤ 16777215 * (2 : ℝ) ^ (exponent C - 24) := by linarith
    have hmono := roundReal_mono hP0 hle
    rw [hQ] at hmono
    linarith
  · have hgt : (2 : ℝ) ^ exponent C < C := lt_of_le_of_ne h2E (Ne.symm hpow)
    have hMlo : (8388608 : ℤ) < roundTiesToEven (C / ulp C) := by
      have h1 : (8388608 : ℝ) * (2 * (2 : ℝ) ^ (exponent C - 24))
          < ((roundTiesToEven (C / ulp C) : ℤ) : ℝ) * (2 * (2 : ℝ) ^ (exponent C - 24)) := by
        linarith
      have h2 := lt_of_mul_lt_mul_right h1 h2a.le
      exact_mod_cast h2
    have hMhi : roundTiesToEven (C / ulp C) < 16777216 := by
      have h1 : ((roundTiesToEven (C / ulp C) : ℤ) : ℝ) * (2 * (2 : ℝ) ^ (exponent C - 24))
          < (16777216 : ℝ) * (2 * (2 : ℝ) ^ (exponent C - 24)) := by
        linarith
      have h2 := lt_of_mul_lt_mul_right h1 h2a.le
      exact_mod_cast h2
    -- the binary32 number just below `C`
    have hQ := roundReal_intCast_mul_zpow (roundTiesToEven (C / ulp C) - 1) (exponent C - 23)
      (by rw [abs_of_nonneg (by omega)]; omega) (by omega)
    rw [h23] at hQ
    push_cast at hQ
    have hQval : (((roundTiesToEven (C / ulp C) : ℤ) : ℝ) - 1) * (2 * (2 : ℝ) ^ (exponent C - 24))
        = C - 2 * (2 : ℝ) ^ (exponent C - 24) := by
      rw [sub_mul, hMeq]
      ring
    rw [hQval] at hQ
    have hPlt : u * C < C - (2 : ℝ) ^ (exponent C - 24) := by
      have : (2 : ℝ) ^ (exponent C - 24) < C / 16777216 := by
        rw [lt_div_iff₀ (by norm_num)]
        linarith
      linarith
    by_cases hPQ : u * C ≤ C - 2 * (2 : ℝ) ^ (exponent C - 24)
    · have hmono := roundReal_mono hP0 hPQ
      rw [hQ] at hmono
      linarith
    · have hPQ' := not_le.mp hPQ
      have hQlo : (2 : ℝ) ^ exponent C ≤ C - 2 * (2 : ℝ) ^ (exponent C - 24) := by
        have hM1 : ((8388609 : ℤ) : ℝ) ≤ ((roundTiesToEven (C / ulp C) : ℤ) : ℝ) := by
          have : (8388609 : ℤ) ≤ roundTiesToEven (C / ulp C) := by omega
          exact_mod_cast this
        push_cast at hM1
        have := mul_le_mul_of_nonneg_right hM1 h2a.le
        linarith
      have hPpos : 0 < u * C := by
        have := two_zpow_pos (exponent C)
        linarith
      have hexpP : exponent (u * C) = exponent C := by
        apply exponent_eq (exponent_ge C)
        · rw [abs_of_pos hPpos]
          linarith
        · rw [abs_of_pos hPpos]
          linarith
      have hround : roundTiesToEven (u * C / ulp (u * C)) = roundTiesToEven (C / ulp C) - 1 := by
        have hulpP : ulp (u * C) = 2 * (2 : ℝ) ^ (exponent C - 24) := by
          unfold ulp
          rw [hexpP, h23]
        rw [hulpP]
        apply roundTiesToEven_of_lt_half
        · rw [le_div_iff₀ h2a]
          push_cast
          rw [hQval]
          exact hPQ'.le
        · rw [div_lt_iff₀ h2a]
          push_cast
          have e : (((roundTiesToEven (C / ulp C) : ℤ) : ℝ) - 1 + 1 / 2)
              * (2 * (2 : ℝ) ^ (exponent C - 24)) = C - (2 : ℝ) ^ (exponent C - 24) := by
            have : (((roundTiesToEven (C / ulp C) : ℤ) : ℝ) - 1 + 1 / 2)
                * (2 * (2 : ℝ) ^ (exponent C - 24))
                = (((roundTiesToEven (C / ulp C) : ℤ) : ℝ) - 1)
                  * (2 * (2 : ℝ) ^ (exponent C - 24)) + (2 : ℝ) ^ (exponent C - 24) := by ring
            rw [this, hQval]
            ring
          rw [e]
          exact hPlt
      have hval : roundReal (u * C) = C - 2 * (2 : ℝ) ^ (exponent C - 24) := by
        have hulpP : ulp (u * C) = 2 * (2 : ℝ) ^ (exponent C - 24) := by
          unfold ulp
          rw [hexpP, h23]
        unfold roundReal
        rw [hround, hulpP]
        push_cast
        exact hQval
      rw [hval]
      linarith

end Binary32

/-! ### The cluster slice in binary32 -/

theorem toU32_of_two_pow_le {f : ℝ} (hf : (2 : ℝ) ^ 32 ≤ f) : toU32 f = none := by
  have hf0 : 0 ≤ f := le_trans (by norm_num) hf
  have hfl : (2 : ℤ) ^ 32 ≤ ⌊f⌋ := by
    rw [Int.le_floor]
    push_cast
    linarith
  unfold toU32
  rw [truncF32_of_nonneg hf0, if_neg]
  intro h
  omega

namespace Binary32

theorem sqrt_of_nonneg {s : ℝ} (h0 : 0 ≤ s) (hs : |s| < 2 ^ 128) :
    sqrt s = some (roundReal (Real.sqrt s)) := by
  unfold sqrt
  rw [if_neg (not_lt.mpr h0)]
  refine roundF32_of_le_zpow (Real.sqrt_nonneg s) ?_
  rw [abs_of_nonneg h0] at hs
  rw [Real.sqrt_le_left (by positivity)]
  refine le_trans hs.le ?_
  norm_num

theorem clusterOperand_abs_lt {magic : ClustererMagicValues} {W : Vec3} {s : ℝ}
    (h : clusterOperand magic W = some s) : |s| < 2 ^ 128 := by
  unfold clusterOperand at h
  obtain ⟨d, _, hd⟩ := Option.bind_eq_some.mp h
  exact (roundF32_eq_some_iff.mp hd).2

theorem computeClusterKf_of_operand {magic : ClustererMagicValues} {W : Vec3} {s : ℝ}
    (h : clusterOperand magic W = some s) (h0 : 0 ≤ s) :
    computeClusterKf magic W = some (roundReal (Real.sqrt s)) := by
  unfold computeClusterKf
  rw [h]
  exact sqrt_of_nonneg h0 (clusterOperand_abs_lt h)

theorem computeClusterK_of_operand {magic : ClustererMagicValues} {W : Vec3} {s : ℝ}
    (h : clusterOperand magic W = some s) (h0 : 0 ≤ s) :
    (roundReal (Real.sqrt s) < 2 ^ 32 →
      computeClusterK magic W = some ⌊roundReal (Real.sqrt s)⌋₊) ∧
    ((2 : ℝ) ^ 32 ≤ roundReal (Real.sqrt s) → computeClusterK magic W = none) := by
  have hr0 : 0 ≤ roundReal (Real.sqrt s) := roundReal_nonneg (Real.sqrt_nonneg s)
  unfold computeClusterK
  rw [computeClusterKf_of_operand h h0]
  constructor
  · intro hlt
    refine toU32_of_nonneg hr0 ?_
    rw [Nat.floor_lt hr0]
    push_cast
    linarith
  · intro hge
    exact toU32_of_two_pow_le hge

/-- C5: for a position whose operand `dot(val0.xyz, worldPos) - val0.w`, computed in `F32`,
is non-negative, `computeClusterKf` is the `F32` square root of the operand, a
non-negative number, and when it is below 2^32 the conversion to `U32` is defined and
`computeClusterK` is its floor. -/
theorem computeClusterK_eq_floor (magic : ClustererMagicValues) (worldPos : Vec3) (s : ℝ)
    (hs : clusterOperand magic worldPos = some s) (h0 : 0 ≤ s) :
    ∃ r, sqrt s = some r ∧ computeClusterKf magic worldPos = some r ∧ 0 ≤ r ∧
      (r < 2 ^ 32 → computeClusterK magic worldPos = some ⌊r⌋₊) := by
  refine ⟨roundReal (Real.sqrt s), sqrt_of_nonneg h0 (clusterOperand_abs_lt hs),
    computeClusterKf_of_operand hs h0, roundReal_nonneg (Real.sqrt_nonneg s), ?_⟩
  exact (computeClusterK_of_operand hs h0).1

/-- C3 (amended): for fixed magic values and two positions with `F32` operands
`0 <= s1 <= s2`, `computeClusterKf` is defined at both and non-decreasing, and when its
value at the deeper position is below 2^32 `computeClusterK` is defined at both and
non-decreasing. -/
theorem computeClusterKf_monotone (magic : ClustererMagicValues) (W1 W2 : Vec3) (s1 s2 : ℝ)
    (h1 : clusterOperand magic W1 = some s1) (h2 : clusterOperand magic W2 = some s2)
    (h0 : 0 ≤ s1) (h12 : s1 ≤ s2) :
    ∃ r1 r2, computeClusterKf magic W1 = some r1 ∧ computeClusterKf magic W2 = some r2 ∧
      r1 ≤ r2 ∧
      (r2 < 2 ^ 32 → ∃ k1 k2, computeClusterK magic W1 = some k1 ∧
        computeClusterK magic W2 = some k2 ∧ k1 ≤ k2) := by
  have h02 : 0 ≤ s2 := le_trans h0 h12
  have hle : roundReal (Real.sqrt s1) ≤ roundReal (Real.sqrt s2) :=
    roundReal_mono (Real.sqrt_nonneg s1) (Real.sqrt_le_sqrt h12)
  refine ⟨_, _, computeClusterKf_of_operand h1 h0, computeClusterKf_of_operand h2 h02, hle, ?_⟩
  intro hlt
  refine ⟨_, _, (computeClusterK_of_operand h1 h0).1 (lt_of_le_of_lt hle hlt),
    (computeClusterK_of_operand h2 h02).1 hlt, Nat.floor_le_floor hle⟩

end Binary32

namespace Binary32

/-! ### Evaluation of the rounding at given numbers -/

theorem roundTiesToEven_of_gt_half {y : ℝ} {n : ℤ} (h1 : (n : ℝ) + 1 / 2 < y)
    (h2 : y < (n : ℝ) + 1) : roundTiesToEven y = n + 1 := by
  have hfl : ⌊y⌋ = n := by
    rw [Int.floor_eq_iff]
    exact ⟨by linarith, h2⟩
  have hfr : 1 / 2 < Int.fract y := by
    have := Int.floor_add_fract y
    rw [hfl] at this
    linarith
  unfold roundTiesToEven
  rw [if_neg (not_lt.mpr hfr.le), if_pos hfr, hfl]

theorem roundReal_of_exponent {x : ℝ} {E N : ℤ} (hE : exponent x = E)
    (hN : roundTiesToEven (x / (2 : ℝ) ^ (E - 23)) = N) :
    roundReal x = (N : ℝ) * (2 : ℝ) ^ (E - 23) := by
  unfold roundReal ulp
  rw [hE, hN]

theorem roundF32_zero : roundF32 0 = some 0 := by
  have h := roundF32_natCast 0 (by norm_num)
  simpa using h

theorem roundF32_of_roundReal_eq {x : ℝ} (h : roundReal x = x) (hlt : |x| < 2 ^ 128) :
    roundF32 x = some x :=
  roundF32_eq_some_iff.mpr ⟨h, hlt⟩

theorem roundF32_idem {x p : ℝ} (hx : 0 ≤ x) (h : roundF32 x = some p) :
    roundF32 p = some p := by
  obtain ⟨hr, hlt⟩ := roundF32_eq_some_iff.mp h
  refine roundF32_of_roundReal_eq ?_ hlt
  rw [← hr]
  exact roundReal_idem hx

/-- The operand for magic values along the depth axis: the single product, rounded. -/
theorem clusterOperand_axis (a : ℝ) (v1 : Vec4) (W : Vec3) (p : ℝ) (hp : 0 ≤ a * W.z)
    (h : roundF32 (a * W.z) = some p) :
    clusterOperand ⟨⟨0, 0, a, 0⟩, v1⟩ W = some p := by
  have hpp := roundF32_idem hp h
  unfold clusterOperand dot mul add sub Vec4.xyz
  simp only [zero_mul, roundF32_zero, Option.some_bind, add_zero, zero_add, h, hpp, sub_zero]

theorem roundF32_seventy_percent_mul_seventy :
    roundF32 ((11744051 / 16777216 : ℝ) * 70) = some 49 := by
  have hE : exponent ((11744051 / 16777216 : ℝ) * 70) = 5 := by
    apply exponent_eq (by norm_num)
    · rw [abs_of_pos (by norm_num)]
      norm_num
    · rw [abs_of_pos (by norm_num)]
      norm_num
  have hN : roundTiesToEven ((11744051 / 16777216 : ℝ) * 70 / (2 : ℝ) ^ ((5 : ℤ) - 23))
      = 12845055 + 1 := by
    apply roundTiesToEven_of_gt_half
    · norm_num
    · norm_num
  have hr : roundReal ((11744051 / 16777216 : ℝ) * 70) = 49 := by
    rw [roundReal_of_exponent hE hN]
    norm_num
  rw [roundF32_eq_some_iff]
  exact ⟨hr, by norm_num⟩

theorem roundReal_seventy_percent_mul_ten :
    roundReal ((11744051 / 16777216 : ℝ) * 10) = 7 := by
  have hE : exponent ((11744051 / 16777216 : ℝ) * 10) = 2 := by
    apply exponent_eq (by norm_num)
    · rw [abs_of_pos (by norm_num)]
      norm_num
    · rw [abs_of_pos (by norm_num)]
      norm_num
  have hN : roundTiesToEven ((11744051 / 16777216 : ℝ) * 10 / (2 : ℝ) ^ ((2 : ℤ) - 23))
      = 14680063 + 1 := by
    apply roundTiesToEven_of_gt_half
    · norm_num
    · norm_num
  rw [roundReal_of_exponent hE hN]
  norm_num

theorem sqrt_forty_nine : Real.sqrt (49 : ℝ) = 7 := by
  have h : (49 : ℝ) = 7 * 7 := by norm_num
  rw [h, Real.sqrt_mul_self (by norm_num)]

theorem computeClusterK_eq_floor_witness :
    computeClusterKf ⟨⟨0, 0, 11744051 / 16777216, 0⟩, ⟨1, 0, 0, 0⟩⟩ ⟨0, 0, 70⟩ = some 7 ∧
    computeClusterK ⟨⟨0, 0, 11744051 / 16777216, 0⟩, ⟨1, 0, 0, 0⟩⟩ ⟨0, 0, 70⟩ = some 7 ∧
    (11744051 / 16777216 : ℝ) * 70 < 49 := by
  obtain ⟨r, hsq, hkf, _, hK⟩ := computeClusterK_eq_floor
    ⟨⟨0, 0, 11744051 / 16777216, 0⟩, ⟨1, 0, 0, 0⟩⟩ ⟨0, 0, 70⟩ 49
    (clusterOperand_axis _ _ _ 49 (by norm_num) roundF32_seventy_percent_mul_seventy)
    (by norm_num)
  have hr7 : roundReal (Real.sqrt 49) = ((7 : ℕ) : ℝ) := by
    rw [sqrt_forty_nine]
    have := roundReal_natCast 7 (by norm_num)
    exact_mod_cast this
  have hlt : |(49 : ℝ)| < 2 ^ 128 := by
    rw [abs_of_pos (by norm_num)]
    norm_num
  have hr : r = ((7 : ℕ) : ℝ) := by
    have h := sqrt_of_nonneg (by norm_num : (0 : ℝ) ≤ 49) hlt
    rw [hsq, hr7] at h
    exact Option.some.inj h
  have hK7 := hK (by rw [hr]; norm_num)
  rw [hr, Nat.floor_natCast] at hK7
  rw [hr] at hkf
  refine ⟨?_, hK7, by norm_num⟩
  rw [hkf]
  norm_num

end Binary32

namespace Binary32

theorem roundF32_four : roundF32 ((1 : ℝ) * 4) = some 4 := by
  have h := roundF32_natCast 4 (by norm_num)
  simpa using h

theorem roundF32_two_pow_64 : roundF32 ((1 : ℝ) * 2 ^ 64) = some (2 ^ 64) := by
  have h := roundReal_two_zpow 64 (by norm_num)
  have h64 : ((2 : ℝ) ^ (64 : ℤ)) = (2 : ℝ) ^ 64 := by norm_num
  rw [h64] at h
  rw [one_mul, roundF32_eq_some_iff]
  refine ⟨h, ?_⟩
  rw [abs_of_pos (by positivity)]
  norm_num

theorem roundReal_sqrt_two_pow_64 : roundReal (Real.sqrt (2 ^ 64)) = 2 ^ 32 := by
  have hs : Real.sqrt ((2 : ℝ) ^ 64) = 2 ^ 32 := by
    have h : (2 : ℝ) ^ 64 = 2 ^ 32 * 2 ^ 32 := by norm_num
    rw [h, Real.sqrt_mul_self (by positivity)]
  have h := roundReal_two_zpow 32 (by norm_num)
  have h32 : ((2 : ℝ) ^ (32 : ℤ)) = (2 : ℝ) ^ 32 := by norm_num
  rw [h32] at h
  rw [hs, h]

theorem roundReal_sqrt_four : roundReal (Real.sqrt 4) = ((2 : ℕ) : ℝ) := by
  rw [sqrt_four]
  have := roundReal_natCast 2 (by norm_num)
  exact_mod_cast this

theorem roundF32_six : roundF32 ((1 : ℝ) * 6) = some 6 := by
  have h := roundF32_natCast 6 (by norm_num)
  simpa using h

theorem floor_roundReal_sqrt_six : ⌊roundReal (Real.sqrt 6)⌋₊ = 2 := by
  have h2 : roundReal (2 : ℝ) = 2 := by
    have := roundReal_natCast 2 (by norm_num)
    simpa using this
  have h52 : roundReal (5 / 2 : ℝ) = 5 / 2 := by
    have e : (5 / 2 : ℝ) = ((5 : ℤ) : ℝ) * (2 : ℝ) ^ (-1 : ℤ) := by norm_num
    rw [e]
    exact roundReal_intCast_mul_zpow 5 (-1) (by norm_num) (by norm_num)
  have hlo : (2 : ℝ) ≤ Real.sqrt 6 := by
    rw [Real.le_sqrt' (by norm_num)]
    norm_num
  have hhi : Real.sqrt 6 ≤ 5 / 2 := by
    rw [Real.sqrt_le_left (by norm_num)]
    norm_num
  have hl := roundReal_mono (by norm_num) hlo
  have hh := roundReal_mono (Real.sqrt_nonneg 6) hhi
  rw [h2] at hl
  rw [h52] at hh
  rw [Nat.floor_eq_iff (le_trans (by norm_num) hl)]
  constructor
  · exact_mod_cast hl
  · have : (5 / 2 : ℝ) < ((2 : ℕ) : ℝ) + 1 := by norm_num
    exact lt_of_le_of_lt hh this

theorem computeClusterKf_monotone_witness :
    ∃ r1 r2, computeClusterKf ⟨⟨0, 0, 1, 0⟩, ⟨1, 0, 0, 0⟩⟩ ⟨0, 0, 4⟩ = some r1 ∧
      computeClusterKf ⟨⟨0, 0, 1, 0⟩, ⟨1, 0, 0, 0⟩⟩ ⟨0, 0, 6⟩ = some r2 ∧
      r1 ≤ r2 ∧ r2 < 2 ^ 32 ∧
      ∃ k1 k2, computeClusterK ⟨⟨0, 0, 1, 0⟩, ⟨1, 0, 0, 0⟩⟩ ⟨0, 0, 4⟩ = some k1 ∧
        computeClusterK ⟨⟨0, 0, 1, 0⟩, ⟨1, 0, 0, 0⟩⟩ ⟨0, 0, 6⟩ = some k2 ∧ k1 ≤ k2 := by
  have h6 := clusterOperand_axis 1 ⟨1, 0, 0, 0⟩ ⟨0, 0, 6⟩ 6 (by norm_num) roundF32_six
  obtain ⟨r1, r2, hf1, hf2, hle, hK⟩ := computeClusterKf_monotone
    ⟨⟨0, 0, 1, 0⟩, ⟨1, 0, 0, 0⟩⟩ ⟨0, 0, 4⟩ ⟨0, 0, 6⟩ 4 6
    (clusterOperand_axis 1 _ ⟨0, 0, 4⟩ 4 (by norm_num) roundF32_four) h6
    (by norm_num) (by norm_num)
  have hr2 : r2 = roundReal (Real.sqrt 6) := by
    have h := computeClusterKf_of_operand h6 (by norm_num)
    rw [hf2] at h
    exact Option.some.inj h
  have hlt : r2 < 2 ^ 32 := by
    rw [hr2]
    have hr0 : 0 ≤ roundReal (Real.sqrt 6) := roundReal_nonneg (Real.sqrt_nonneg 6)
    have h3 : roundReal (Real.sqrt 6) < ((2 : ℕ) : ℝ) + 1 :=
      ((Nat.floor_eq_iff hr0).mp floor_roundReal_sqrt_six).2
    have : ((2 : ℕ) : ℝ) + 1 < 2 ^ 32 := by norm_num
    exact lt_trans h3 this
  exact ⟨r1, r2, hf1, hf2, hle, hlt, hK hlt⟩

/-- C3 (counterexample): for `val0 = (0, 0, 1, 0)` the positions `(0, 0, 4)` and
`(0, 0, 2^64)` have the operands `4 <= 2^64` and `computeClusterKf` gives `2 <= 2^32`, but
`computeClusterK` is 2 at the first and has no value at the second, whose `F32` does not
fit a `U32`: no two slices `k1 <= k2` are returned. -/
theorem computeClusterK_not_monotone :
    clusterOperand ⟨⟨0, 0, 1, 0⟩, ⟨1, 0, 0, 0⟩⟩ ⟨0, 0, 4⟩ = some 4 ∧
    clusterOperand ⟨⟨0, 0, 1, 0⟩, ⟨1, 0, 0, 0⟩⟩ ⟨0, 0, 2 ^ 64⟩ = some (2 ^ 64) ∧
    (0 : ℝ) ≤ 4 ∧ (4 : ℝ) ≤ 2 ^ 64 ∧
    computeClusterKf ⟨⟨0, 0, 1, 0⟩, ⟨1, 0, 0, 0⟩⟩ ⟨0, 0, 4⟩ = some 2 ∧
    computeClusterKf ⟨⟨0, 0, 1, 0⟩, ⟨1, 0, 0, 0⟩⟩ ⟨0, 0, 2 ^ 64⟩ = some (2 ^ 32) ∧
    computeClusterK ⟨⟨0, 0, 1, 0⟩, ⟨1, 0, 0, 0⟩⟩ ⟨0, 0, 4⟩ = some 2 ∧
    computeClusterK ⟨⟨0, 0, 1, 0⟩, ⟨1, 0, 0, 0⟩⟩ ⟨0, 0, 2 ^ 64⟩ = none ∧
    ¬ ∃ k1 k2, computeClusterK ⟨⟨0, 0, 1, 0⟩, ⟨1, 0, 0, 0⟩⟩ ⟨0, 0, 4⟩ = some k1 ∧
      computeClusterK ⟨⟨0, 0, 1, 0⟩, ⟨1, 0, 0, 0⟩⟩ ⟨0, 0, 2 ^ 64⟩ = some k2 ∧ k1 ≤ k2 := by
  have h1 := clusterOperand_axis 1 ⟨1, 0, 0, 0⟩ ⟨0, 0, 4⟩ 4 (by norm_num) roundF32_four
  have h2 := clusterOperand_axis 1 ⟨1, 0, 0, 0⟩ ⟨0, 0, 2 ^ 64⟩ (2 ^ 64) (by norm_num)
    roundF32_two_pow_64
  have hf1 := computeClusterKf_of_operand h1 (by norm_num)
  have hf2 := computeClusterKf_of_operand h2 (by positivity)
  have hk1 := (computeClusterK_of_operand h1 (by norm_num)).1
    (by rw [roundReal_sqrt_four]; norm_num)
  have hk2 := (computeClusterK_of_operand h2 (by positivity)).2
    (by rw [roundReal_sqrt_two_pow_64])
  rw [roundReal_sqrt_four] at hf1 hk1
  rw [roundReal_sqrt_two_pow_64] at hf2
  rw [Nat.floor_natCast] at hk1
  refine ⟨h1, h2, by norm_num, by norm_num, ?_, hf2, hk1, hk2, ?_⟩
  · rw [hf1]
    norm_num
  · rintro ⟨k1, k2, _, hk, _⟩
    rw [hk2] at hk
    exact Option.noConfusion hk

end Binary32

namespace Binary32

/-! ### The flat cluster index in binary32 -/

/-- One component of `UVec2(uv * Vec2(F32(countX), F32(countY)))`: the count converted to
`F32`, the `F32` product and its conversion to `U32`. -/
theorem tile_eval (u : ℝ) (c : ℕ) (hu : 0 ≤ u) (hc : c < 2 ^ 32)
    (hlt : roundReal (u * roundReal c) < 2 ^ 32) :
    ofU32 c = some (roundReal c) ∧
    mul u (roundReal c) = some (roundReal (u * roundReal c)) ∧
    toU32 (roundReal (u * roundReal c)) = some ⌊roundReal (u * roundReal c)⌋₊ := by
  have hc0 : (0 : ℝ) ≤ (c : ℝ) := Nat.cast_nonneg c
  have hC0 : 0 ≤ roundReal c := roundReal_nonneg hc0
  have hP0 : 0 ≤ roundReal (u * roundReal c) := roundReal_nonneg (mul_nonneg hu hC0)
  refine ⟨?_, ?_, ?_⟩
  · unfold ofU32
    refine roundF32_of_le_zpow hc0 ?_
    have h1 : (c : ℝ) < 2 ^ 32 := by exact_mod_cast hc
    refine le_trans h1.le ?_
    norm_num
  · unfold mul
    rw [roundF32_eq_some_iff]
    refine ⟨rfl, ?_⟩
    rw [abs_of_nonneg hP0]
    refine lt_trans hlt ?_
    norm_num
  · refine toU32_of_nonneg hP0 ?_
    rw [Nat.floor_lt hP0]
    push_cast
    linarith

theorem computeClusterIndex_of_parts (magic : ClustererMagicValues) (uv : Vec2) (W : Vec3)
    (cx cy k : ℕ) (hx : 0 ≤ uv.x) (hy : 0 ≤ uv.y) (hcx : cx < 2 ^ 32) (hcy : cy < 2 ^ 32)
    (hk : computeClusterK magic W = some k)
    (hpx : roundReal (uv.x * roundReal cx) < 2 ^ 32)
    (hpy : roundReal (uv.y * roundReal cy) < 2 ^ 32)
    (hov : k * (cx * cy) + ⌊roundReal (uv.y * roundReal cy)⌋₊ * cx
      + ⌊roundReal (uv.x * roundReal cx)⌋₊ < 2 ^ 32) :
    computeClusterIndex magic uv W cx cy
      = some (k * (cx * cy) + ⌊roundReal (uv.y * roundReal cy)⌋₊ * cx
        + ⌊roundReal (uv.x * roundReal cx)⌋₊) := by
  obtain ⟨hox, hmx, htx⟩ := tile_eval uv.x cx hx hcx hpx
  obtain ⟨hoy, hmy, hty⟩ := tile_eval uv.y cy hy hcy hpy
  unfold computeClusterIndex
  simp only [hox, hoy, hmx, hmy, htx, hty, hk, Option.some_bind]
  rw [u32_index_arith _ _ _ _ _ hov]

/-- C4: for a `uv` with non-negative components, a position whose `F32` operand `s` is
non-negative with an `F32` square root below 2^32, and counts for which neither the tile
conversions nor `k*(countX*countY) + y*countX + x` overflow 32 bits, `computeClusterIndex`
returns `k*(countX*countY) + y*countX + x`, where `x` and `y` are the floors of the `F32`
products `uv.x * F32(countX)` and `uv.y * F32(countY)` and `k` is the value of
`computeClusterK`, the floor of the `F32` square root. -/
theorem computeClusterIndex_eq (magic : ClustererMagicValues) (uv : Vec2) (worldPos : Vec3)
    (clusterCountX clusterCountY : ℕ) (s : ℝ) (hx : 0 ≤ uv.x) (hy : 0 ≤ uv.y)
    (hcx : clusterCountX < 2 ^ 32) (hcy : clusterCountY < 2 ^ 32)
    (hs : clusterOperand magic worldPos = some s) (h0 : 0 ≤ s)
    (hk : roundReal (Real.sqrt s) < 2 ^ 32)
    (hpy : roundReal (uv.y * roundReal clusterCountY) < 2 ^ 32)
    (hov : ⌊roundReal (Real.sqrt s)⌋₊ * (clusterCountX * clusterCountY)
      + ⌊roundReal (uv.y * roundReal clusterCountY)⌋₊ * clusterCountX
      + ⌊roundReal (uv.x * roundReal clusterCountX)⌋₊ < 2 ^ 32) :
    computeClusterK magic worldPos = some ⌊roundReal (Real.sqrt s)⌋₊ ∧
    computeClusterIndex magic uv worldPos clusterCountX clusterCountY
      = some (⌊roundReal (Real.sqrt s)⌋₊ * (clusterCountX * clusterCountY)
        + ⌊roundReal (uv.y * roundReal clusterCountY)⌋₊ * clusterCountX
        + ⌊roundReal (uv.x * roundReal clusterCountX)⌋₊) := by
  have hK := (computeClusterK_of_operand hs h0).1 hk
  have hC0 : 0 ≤ roundReal (clusterCountX : ℝ) := roundReal_nonneg (Nat.cast_nonneg _)
  have hP0 : 0 ≤ roundReal (uv.x * roundReal clusterCountX) :=
    roundReal_nonneg (mul_nonneg hx hC0)
  have hpx : roundReal (uv.x * roundReal clusterCountX) < 2 ^ 32 := by
    have hfl : ⌊roundReal (uv.x * roundReal clusterCountX)⌋₊ < 2 ^ 32 := by omega
    rw [Nat.floor_lt hP0] at hfl
    push_cast at hfl
    linarith
  exact ⟨hK, computeClusterIndex_of_parts magic uv worldPos _ _ _ hx hy hcx hcy hK hpx hpy hov⟩

/-- A tile stays below its count: for an `F32` coordinate in `[0, 1)` and a count of at
least 1 the `F32` product with the converted count is below the count. -/
theorem tile_lt (u : ℝ) (c : ℕ) (hu0 : 0 ≤ u) (hu1 : u < 1) (hu : roundReal u = u)
    (hc : 1 ≤ c) :
    0 ≤ roundReal (u * roundReal c) ∧ roundReal (u * roundReal c) < c ∧
      ⌊roundReal (u * roundReal c)⌋₊ < c := by
  have hc0 : (0 : ℝ) ≤ (c : ℝ) := Nat.cast_nonneg c
  have hC0 : 0 ≤ roundReal c := roundReal_nonneg hc0
  have hP0 : 0 ≤ roundReal (u * roundReal c) := roundReal_nonneg (mul_nonneg hu0 hC0)
  have hC : roundReal (roundReal (c : ℝ)) = roundReal (c : ℝ) := roundReal_idem hc0
  have h1 : roundReal (1 : ℝ) = 1 := by
    have := roundReal_natCast 1 (by norm_num)
    simpa using this
  have hC1 : 1 ≤ roundReal (c : ℝ) := by
    have hle : (1 : ℝ) ≤ (c : ℝ) := by exact_mod_cast hc
    have := roundReal_mono (by norm_num) hle
    rwa [h1] at this
  have hlt := roundReal_mul_lt hu0 hu1 hu hC hC1
  have hf : roundReal (roundReal (u * roundReal c)) = roundReal (u * roundReal c) :=
    roundReal_idem (mul_nonneg hu0 hC0)
  have hltc := lt_of_isF32_of_lt_roundReal hf hc0 hlt
  exact ⟨hP0, hltc, (Nat.floor_lt hP0).mpr hltc⟩

theorem computeClusterIndex_of_unit (magic : ClustererMagicValues) (uv : Vec2) (W : Vec3)
    (cx cy cz k : ℕ) (hcx : 1 ≤ cx) (hcy : 1 ≤ cy) (hprod : cx * cy * cz < 2 ^ 32)
    (hx0 : 0 ≤ uv.x) (hx1 : uv.x < 1) (hxf : IsF32 uv.x)
    (hy0 : 0 ≤ uv.y) (hy1 : uv.y < 1) (hyf : IsF32 uv.y)
    (hk : computeClusterK magic W = some k) (hkz : k < cz) :
    computeClusterIndex magic uv W cx cy
      = some (k * (cx * cy) + ⌊roundReal (uv.y * roundReal cy)⌋₊ * cx
        + ⌊roundReal (uv.x * roundReal cx)⌋₊) ∧
    ⌊roundReal (uv.x * roundReal cx)⌋₊ < cx ∧ ⌊roundReal (uv.y * roundReal cy)⌋₊ < cy := by
  obtain ⟨_, hxr, hxn⟩ := tile_lt uv.x cx hx0 hx1 (isF32_iff.mp hxf).1 hcx
  obtain ⟨_, hyr, hyn⟩ := tile_lt uv.y cy hy0 hy1 (isF32_iff.mp hyf).1 hcy
  have hcz : 1 ≤ cz := by omega
  have hxy : 1 ≤ cx * cy := Nat.mul_pos hcx hcy
  have hcxle : cx ≤ cx * cy * cz := by
    calc cx = cx * 1 * 1 := by ring
      _ ≤ cx * cy * cz := Nat.mul_le_mul (Nat.mul_le_mul_left cx hcy) hcz
  have hcyle : cy ≤ cx * cy * cz := by
    calc cy = 1 * cy * 1 := by ring
      _ ≤ cx * cy * cz := Nat.mul_le_mul (Nat.mul_le_mul_right cy hcx) hcz
  have hcx32 : cx < 2 ^ 32 := lt_of_le_of_lt hcxle hprod
  have hcy32 : cy < 2 ^ 32 := lt_of_le_of_lt hcyle hprod
  have hcxr : (cx : ℝ) < 2 ^ 32 := by exact_mod_cast hcx32
  have hcyr : (cy : ℝ) < 2 ^ 32 := by exact_mod_cast hcy32
  have hfl := flat_index_lt _ _ k cx cy cz hxn hyn hkz
  refine ⟨computeClusterIndex_of_parts magic uv W cx cy k hx0 hy0 hcx32 hcy32 hk
    (lt_trans hxr hcxr) (lt_trans hyr hcyr) (lt_trans hfl hprod), hxn, hyn⟩

/-- C16: for counts of at least 1 whose product is below 2^32, `F32` coordinates in
`[0, 1)` and positions whose `computeClusterK` is below `countZ`, `computeClusterIndex`
returns `k*(countX*countY) + y*countX + x` with tiles `x < countX`, `y < countY` (the
floors of the `F32` products), the index is below `countX*countY*countZ`, it decodes to
`x = index mod countX`, `y = (index / countX) mod countY`, `k = index / (countX*countY)`,
and two inputs with the same index have the same `x`, the same `y` and the same `k`. -/
theorem computeClusterIndex_injective (magic : ClustererMagicValues) (uv1 uv2 : Vec2)
    (W1 W2 : Vec3) (countX countY countZ k1 k2 : ℕ)
    (hcx : 1 ≤ countX) (hcy : 1 ≤ countY) (hprod : countX * countY * countZ < 2 ^ 32)
    (h1x0 : 0 ≤ uv1.x) (h1x1 : uv1.x < 1) (h1xf : IsF32 uv1.x)
    (h1y0 : 0 ≤ uv1.y) (h1y1 : uv1.y < 1) (h1yf : IsF32 uv1.y)
    (h2x0 : 0 ≤ uv2.x) (h2x1 : uv2.x < 1) (h2xf : IsF32 uv2.x)
    (h2y0 : 0 ≤ uv2.y) (h2y1 : uv2.y < 1) (h2yf : IsF32 uv2.y)
    (hk1 : computeClusterK magic W1 = some k1) (hkz1 : k1 < countZ)
    (hk2 : computeClusterK magic W2 = some k2) (hkz2 : k2 < countZ) :
    ∃ x1 y1 x2 y2 i1 i2 : ℕ,
      x1 = ⌊roundReal (uv1.x * roundReal countX)⌋₊ ∧
      y1 = ⌊roundReal (uv1.y * roundReal countY)⌋₊ ∧
      x2 = ⌊roundReal (uv2.x * roundReal countX)⌋₊ ∧
      y2 = ⌊roundReal (uv2.y * roundReal countY)⌋₊ ∧
      x1 < countX ∧ y1 < countY ∧ x2 < countX ∧ y2 < countY ∧
      i1 = k1 * (countX * countY) + y1 * countX + x1 ∧
      i2 = k2 * (countX * countY) + y2 * countX + x2 ∧
      computeClusterIndex magic uv1 W1 countX countY = some i1 ∧
      computeClusterIndex magic uv2 W2 countX countY = some i2 ∧
      i1 < countX * countY * countZ ∧ i2 < countX * countY * countZ ∧
      i1 % countX = x1 ∧ (i1 / countX) % countY = y1 ∧ i1 / (countX * countY) = k1 ∧
      (i1 = i2 → x1 = x2 ∧ y1 = y2 ∧ k1 = k2) := by
  obtain ⟨e1, hx1, hy1⟩ := computeClusterIndex_of_unit magic uv1 W1 countX countY countZ k1
    hcx hcy hprod h1x0 h1x1 h1xf h1y0 h1y1 h1yf hk1 hkz1
  obtain ⟨e2, hx2, hy2⟩ := computeClusterIndex_of_unit magic uv2 W2 countX countY countZ k2
    hcx hcy hprod h2x0 h2x1 h2xf h2y0 h2y1 h2yf hk2 hkz2
  obtain ⟨d1x, d1y, d1k⟩ := flat_index_decode _ _ k1 countX countY hx1 hy1
  obtain ⟨d2x, d2y, d2k⟩ := flat_index_decode _ _ k2 countX countY hx2 hy2
  refine ⟨_, _, _, _, _, _, rfl, rfl, rfl, rfl, hx1, hy1, hx2, hy2, rfl, rfl, e1, e2,
    flat_index_lt _ _ k1 countX countY countZ hx1 hy1 hkz1,
    flat_index_lt _ _ k2 countX countY countZ hx2 hy2 hkz2, d1x, d1y, d1k, ?_⟩
  intro heq
  refine ⟨?_, ?_, ?_⟩
  · rw [← d1x, ← d2x, heq]
  · rw [← d1y, ← d2y, heq]
  · rw [← d1k, ← d2k, heq]

end Binary32

namespace Binary32

/-! ### The index at given inputs -/

theorem computeClusterK_four :
    computeClusterK ⟨⟨0, 0, 1, 0⟩, ⟨1, 0, 0, 0⟩⟩ ⟨0, 0, 4⟩ = some 2 := by
  have h1 := clusterOperand_axis 1 ⟨1, 0, 0, 0⟩ ⟨0, 0, 4⟩ 4 (by norm_num) roundF32_four
  have hk1 := (computeClusterK_of_operand h1 (by norm_num)).1
    (by rw [roundReal_sqrt_four]; norm_num)
  rw [roundReal_sqrt_four, Nat.floor_natCast] at hk1
  exact hk1

theorem floor_roundReal_sqrt_four : ⌊roundReal (Real.sqrt 4)⌋₊ = 2 := by
  rw [roundReal_sqrt_four, Nat.floor_natCast]

theorem roundReal_quarter_mul_eight :
    roundReal ((1 / 4 : ℝ) * roundReal ((8 : ℕ) : ℝ)) = ((2 : ℕ) : ℝ) := by
  rw [roundReal_natCast 8 (by norm_num)]
  have h : (1 / 4 : ℝ) * ((8 : ℕ) : ℝ) = ((2 : ℕ) : ℝ) := by norm_num
  rw [h]
  exact roundReal_natCast 2 (by norm_num)

theorem roundReal_seventy_percent_mul_count :
    roundReal ((11744051 / 16777216 : ℝ) * roundReal ((10 : ℕ) : ℝ)) = ((7 : ℕ) : ℝ) := by
  rw [roundReal_natCast 10 (by norm_num)]
  have h : (11744051 / 16777216 : ℝ) * ((10 : ℕ) : ℝ) = (11744051 / 16777216 : ℝ) * 10 := by
    norm_num
  rw [h, roundReal_seventy_percent_mul_ten]
  norm_num

theorem roundReal_three_quarters_mul_count :
    roundReal ((3 / 4 : ℝ) * roundReal ((10 : ℕ) : ℝ)) = 15 / 2 := by
  rw [roundReal_natCast 10 (by norm_num)]
  have h : (3 / 4 : ℝ) * ((10 : ℕ) : ℝ) = ((15 : ℤ) : ℝ) * (2 : ℝ) ^ (-1 : ℤ) := by
    norm_num
  rw [h, roundReal_intCast_mul_zpow 15 (-1) (by norm_num) (by norm_num)]
  norm_num

theorem floor_quarter_mul_eight :
    ⌊roundReal ((1 / 4 : ℝ) * roundReal ((8 : ℕ) : ℝ))⌋₊ = 2 := by
  rw [roundReal_quarter_mul_eight, Nat.floor_natCast]

theorem floor_seventy_percent_mul_count :
    ⌊roundReal ((11744051 / 16777216 : ℝ) * roundReal ((10 : ℕ) : ℝ))⌋₊ = 7 := by
  rw [roundReal_seventy_percent_mul_count, Nat.floor_natCast]

theorem floor_three_quarters_mul_count :
    ⌊roundReal ((3 / 4 : ℝ) * roundReal ((10 : ℕ) : ℝ))⌋₊ = 7 := by
  rw [roundReal_three_quarters_mul_count, Nat.floor_eq_iff (by norm_num)]
  constructor <;> norm_num

theorem isF32_seventy_percent : IsF32 (11744051 / 16777216 : ℝ) := by
  have e : (11744051 / 16777216 : ℝ) = ((11744051 : ℤ) : ℝ) * (2 : ℝ) ^ (-24 : ℤ) := by
    norm_num
  rw [isF32_iff]
  constructor
  · rw [e]
    exact roundReal_intCast_mul_zpow 11744051 (-24) (by norm_num) (by norm_num)
  · rw [abs_of_pos (by norm_num)]
    norm_num

theorem isF32_quarter : IsF32 (1 / 4 : ℝ) := by
  have e : (1 / 4 : ℝ) = ((1 : ℤ) : ℝ) * (2 : ℝ) ^ (-2 : ℤ) := by norm_num
  rw [isF32_iff]
  constructor
  · rw [e]
    exact roundReal_intCast_mul_zpow 1 (-2) (by norm_num) (by norm_num)
  · rw [abs_of_pos (by norm_num)]
    norm_num

theorem isF32_three_quarters : IsF32 (3 / 4 : ℝ) := by
  have e : (3 / 4 : ℝ) = ((3 : ℤ) : ℝ) * (2 : ℝ) ^ (-2 : ℤ) := by norm_num
  rw [isF32_iff]
  constructor
  · rw [e]
    exact roundReal_intCast_mul_zpow 3 (-2) (by norm_num) (by norm_num)
  · rw [abs_of_pos (by norm_num)]
    norm_num

theorem computeClusterIndex_eq_witness :
    computeClusterK ⟨⟨0, 0, 1, 0⟩, ⟨1, 0, 0, 0⟩⟩ ⟨0, 0, 4⟩ = some 2 ∧
    computeClusterIndex ⟨⟨0, 0, 1, 0⟩, ⟨1, 0, 0, 0⟩⟩ ⟨11744051 / 16777216, 1 / 4⟩
      ⟨0, 0, 4⟩ 10 8 = some 187 := by
  have h := computeClusterIndex_eq ⟨⟨0, 0, 1, 0⟩, ⟨1, 0, 0, 0⟩⟩
    ⟨11744051 / 16777216, 1 / 4⟩ ⟨0, 0, 4⟩ 10 8 4 (by norm_num) (by norm_num)
    (by norm_num) (by norm_num)
    (clusterOperand_axis 1 _ ⟨0, 0, 4⟩ 4 (by norm_num) roundF32_four) (by norm_num)
    (by rw [roundReal_sqrt_four]; norm_num)
    (by
      show roundReal ((1 / 4 : ℝ) * roundReal ((8 : ℕ) : ℝ)) < 2 ^ 32
      rw [roundReal_quarter_mul_eight]
      norm_num)
    (by
      show ⌊roundReal (Real.sqrt 4)⌋₊ * (10 * 8)
        + ⌊roundReal ((1 / 4 : ℝ) * roundReal ((8 : ℕ) : ℝ))⌋₊ * 10
        + ⌊roundReal ((11744051 / 16777216 : ℝ) * roundReal ((10 : ℕ) : ℝ))⌋₊ < 2 ^ 32
      rw [floor_roundReal_sqrt_four, floor_quarter_mul_eight,
        floor_seventy_percent_mul_count]
      norm_num)
  have h2 : computeClusterIndex ⟨⟨0, 0, 1, 0⟩, ⟨1, 0, 0, 0⟩⟩ ⟨11744051 / 16777216, 1 / 4⟩
      ⟨0, 0, 4⟩ 10 8
      = some (⌊roundReal (Real.sqrt 4)⌋₊ * (10 * 8)
        + ⌊roundReal ((1 / 4 : ℝ) * roundReal ((8 : ℕ) : ℝ))⌋₊ * 10
        + ⌊roundReal ((11744051 / 16777216 : ℝ) * roundReal ((10 : ℕ) : ℝ))⌋₊) := h.2
  rw [floor_roundReal_sqrt_four, floor_quarter_mul_eight,
    floor_seventy_percent_mul_count] at h2
  have h1 : computeClusterK ⟨⟨0, 0, 1, 0⟩, ⟨1, 0, 0, 0⟩⟩ ⟨0, 0, 4⟩
      = some ⌊roundReal (Real.sqrt 4)⌋₊ := h.1
  rw [floor_roundReal_sqrt_four] at h1
  exact ⟨h1, h2⟩

theorem computeClusterIndex_injective_witness :
    computeClusterIndex ⟨⟨0, 0, 1, 0⟩, ⟨1, 0, 0, 0⟩⟩ ⟨11744051 / 16777216, 1 / 4⟩
      ⟨0, 0, 4⟩ 10 8 = some 187 ∧
    computeClusterIndex ⟨⟨0, 0, 1, 0⟩, ⟨1, 0, 0, 0⟩⟩ ⟨3 / 4, 1 / 4⟩
      ⟨0, 0, 4⟩ 10 8 = some 187 ∧
    187 < 10 * 8 * 4 ∧ 187 % 10 = 7 ∧ (187 / 10) % 8 = 2 ∧ 187 / (10 * 8) = 2 ∧
    ⌊roundReal ((11744051 / 16777216 : ℝ) * roundReal ((10 : ℕ) : ℝ))⌋₊ = 7 ∧
    ⌊roundReal ((3 / 4 : ℝ) * roundReal ((10 : ℕ) : ℝ))⌋₊ = 7 := by
  obtain ⟨x1, y1, x2, y2, i1, i2, hx1, hy1, hx2, hy2, _, _, _, _, hi1, hi2, e1, e2, hlt,
    _, d1, d2, d3, _⟩ := computeClusterIndex_injective ⟨⟨0, 0, 1, 0⟩, ⟨1, 0, 0, 0⟩⟩
    ⟨11744051 / 16777216, 1 / 4⟩ ⟨3 / 4, 1 / 4⟩ ⟨0, 0, 4⟩ ⟨0, 0, 4⟩ 10 8 4 2 2
    (by norm_num) (by norm_num) (by norm_num)
    (by norm_num) (by norm_num) isF32_seventy_percent
    (by norm_num) (by norm_num) isF32_quarter
    (by norm_num) (by norm_num) isF32_three_quarters
    (by norm_num) (by norm_num) isF32_quarter
    computeClusterK_four (by norm_num) computeClusterK_four (by norm_num)
  have a1 : x1 = 7 := hx1.trans floor_seventy_percent_mul_count
  have b1 : y1 = 2 := hy1.trans floor_quarter_mul_eight
  have a2 : x2 = 7 := hx2.trans floor_three_quarters_mul_count
  have b2 : y2 = 2 := hy2.trans floor_quarter_mul_eight
  have c1 : i1 = 187 := by rw [hi1, a1, b1]
  have c2 : i2 = 187 := by rw [hi2, a2, b2]
  rw [c1] at e1 hlt d1 d2 d3
  rw [c2] at e2
  rw [a1] at d1
  rw [b1] at d2
  exact ⟨e1, e2, hlt, d1, d2, d3, floor_seventy_percent_mul_count,
    floor_three_quarters_mul_count⟩

/-- The index of the tile `uv = (0.7f, 0.25)` in a 10 x 8 grid at slice 2 is 187: the
`F32` product `0.7f * 10` is 7, where the exact product is below 7. -/
theorem computeClusterIndex_seventy_percent :
    computeClusterIndex ⟨⟨0, 0, 1, 0⟩, ⟨1, 0, 0, 0⟩⟩ ⟨11744051 / 16777216, 1 / 4⟩
      ⟨0, 0, 4⟩ 10 8 = some 187 ∧
    (11744051 / 16777216 : ℝ) * 10 < 7 := by
  have h := computeClusterIndex_of_parts ⟨⟨0, 0, 1, 0⟩, ⟨1, 0, 0, 0⟩⟩
    ⟨11744051 / 16777216, 1 / 4⟩ ⟨0, 0, 4⟩ 10 8 2 (by norm_num) (by norm_num)
    (by norm_num) (by norm_num) computeClusterK_four
    (by
      show roundReal ((11744051 / 16777216 : ℝ) * roundReal ((10 : ℕ) : ℝ)) < 2 ^ 32
      rw [roundReal_seventy_percent_mul_count]
      norm_num)
    (by
      show roundReal ((1 / 4 : ℝ) * roundReal ((8 : ℕ) : ℝ)) < 2 ^ 32
      rw [roundReal_quarter_mul_eight]
      norm_num)
    (by
      show 2 * (10 * 8)
        + ⌊roundReal ((1 / 4 : ℝ) * roundReal ((8 : ℕ) : ℝ))⌋₊ * 10
        + ⌊roundReal ((11744051 / 16777216 : ℝ) * roundReal ((10 : ℕ) : ℝ))⌋₊ < 2 ^ 32
      rw [floor_quarter_mul_eight, floor_seventy_percent_mul_count]
      norm_num)
  have h2 : computeClusterIndex ⟨⟨0, 0, 1, 0⟩, ⟨1, 0, 0, 0⟩⟩ ⟨11744051 / 16777216, 1 / 4⟩
      ⟨0, 0, 4⟩ 10 8
      = some (2 * (10 * 8)
        + ⌊roundReal ((1 / 4 : ℝ) * roundReal ((8 : ℕ) : ℝ))⌋₊ * 10
        + ⌊roundReal ((11744051 / 16777216 : ℝ) * roundReal ((10 : ℕ) : ℝ))⌋₊) := h
  rw [floor_quarter_mul_eight, floor_seventy_percent_mul_count] at h2
  exact ⟨h2, by norm_num⟩

end Binary32

namespace Binary32

/-! ### The Z range of ClustererBin in binary32 -/

end Binary32

namespace Binary32

/-! ### Shadow cascades in binary32 -/

end Binary32

namespace Binary32

end Binary32

end Anki
